import Mathlib

/-!
Verification of the BSicon-replacement bot's text-substitution core.

The development embeds, over `List Char`:
  * the masking layer of `bsiconsbot/textlib.py` (`mask_text`, `mask_pipe_mw`,
    `unmask_text`),
  * the icon identity model of `bsiconsbot/page.py` (`BSiconPage`),
  * the four reference rewriting strategies of `bsiconsbotscripts/replacer.py`
    (file links, galleries, route-map templates, BS / railway-track templates),
  * the page-processing driver `treat_page` and the per-site caches.

External collaborators (the Python `re` engine, `mwparserfromhell` parsing,
`pywikibot` title normalization and page I/O) are modelled at their interface
boundary: regex scans become match-list functions, parsing becomes a
parse/render pair, and title normalization becomes an oracle function.
-/

namespace BSiconsBot

abbrev Str := List Char

/-- Fuel-driven scanner behind `replacePos`; the fuel only has to dominate the
length of the text, so the definition is structurally recursive and reduces in
the kernel. -/
def replacePosF (p r : Str) : Nat → Str → Str
  | _, [] => []
  | 0, s => s
  | f + 1, c :: s =>
    if p ≠ [] ∧ p.isPrefixOf (c :: s) then r ++ replacePosF p r f ((c :: s).drop p.length)
    else c :: replacePosF p r f s

/-- Python `str.replace` for a nonempty pattern: scan left to right and replace
every non-overlapping occurrence of `p` by `r`. -/
def replacePos (p r : Str) (s : Str) : Str := replacePosF p r s.length s

theorem replacePosF_congr (p r : Str) :
    ∀ n f g, n ≤ f → n ≤ g → ∀ s : Str, s.length = n → replacePosF p r f s = replacePosF p r g s := by
  intro n
  induction n using Nat.strong_induction_on with
  | _ n ih =>
    intro f g hf hg s hs
    cases s with
    | nil => cases f <;> cases g <;> rfl
    | cons c s =>
      subst hs
      simp only [List.length_cons] at hf hg
      obtain ⟨f', rfl⟩ : ∃ f', f = f' + 1 := ⟨f - 1, by omega⟩
      obtain ⟨g', rfl⟩ : ∃ g', g = g' + 1 := ⟨g - 1, by omega⟩
      simp only [replacePosF]
      by_cases hb : p ≠ [] ∧ p.isPrefixOf (c :: s)
      · rw [if_pos hb, if_pos hb]
        have hp1 : 1 ≤ p.length := by
          cases p with
          | nil => exact absurd rfl hb.1
          | cons x q => simp
        have hlen : ((c :: s).drop p.length).length < (c :: s).length := by
          simp only [List.length_drop, List.length_cons]; omega
        rw [ih ((c :: s).drop p.length).length (by simpa using hlen) f' g'
          (by simp only [List.length_drop, List.length_cons] at *; omega)
          (by simp only [List.length_drop, List.length_cons] at *; omega) _ rfl]
      · rw [if_neg hb, if_neg hb]
        rw [ih s.length (by simp) f' g' (by simp at hf; omega) (by simp at hg; omega) s rfl]

theorem replacePos_nil (p r : Str) : replacePos p r [] = [] := rfl

theorem replacePos_cons (p r : Str) (c : Char) (s : Str) :
    replacePos p r (c :: s) =
      if p ≠ [] ∧ p.isPrefixOf (c :: s) then r ++ replacePos p r ((c :: s).drop p.length)
      else c :: replacePos p r s := by
  show replacePosF p r (s.length + 1) (c :: s) = _
  simp only [replacePosF]
  by_cases hb : p ≠ [] ∧ p.isPrefixOf (c :: s)
  · rw [if_pos hb, if_pos hb]
    have hp1 : 1 ≤ p.length := by
      cases p with
      | nil => exact absurd rfl hb.1
      | cons x q => simp
    rw [replacePosF_congr p r ((c :: s).drop p.length).length s.length
      ((c :: s).drop p.length).length
      (by simp only [List.length_drop, List.length_cons]; omega) le_rfl _ rfl]
    rfl
  · rw [if_neg hb, if_neg hb]
    rfl

/-- Python `str.replace`.  For an empty pattern Python inserts the replacement
before every character and at the end (`"ab".replace("", "X") == "XaXbX"`). -/
def pyReplace (s p r : Str) : Str :=
  if p = [] then r ++ s.flatMap (fun c => c :: r) else replacePos p r s

theorem replacePos_of_not_sub (p r : Str) (s : Str) (h : ¬ p <:+: s) :
    replacePos p r s = s := by
  induction s with
  | nil => exact replacePos_nil p r
  | cons c s ih =>
    rw [replacePos_cons]
    rw [if_neg]
    · rw [ih (fun hi => h (List.infix_cons hi))]
    · rintro ⟨-, hpre⟩
      exact h (List.isPrefixOf_iff_prefix.mp hpre).isInfix

theorem replacePos_append_pat (p r rest : Str) (hp : p ≠ []) :
    replacePos p r (p ++ rest) = r ++ replacePos p r rest := by
  cases p with
  | nil => exact absurd rfl hp
  | cons a q =>
    rw [List.cons_append, replacePos_cons, if_pos, ← List.cons_append, List.drop_left]
    exact ⟨by simp, List.isPrefixOf_iff_prefix.mpr (by rw [← List.cons_append]; exact List.prefix_append _ _)⟩

theorem replacePos_skip (p r : Str) :
    ∀ (L rest : Str), (∀ d, d < L.length → ¬ p <+: (L.drop d ++ rest)) →
      replacePos p r (L ++ rest) = L ++ replacePos p r rest := by
  intro L
  induction L with
  | nil => intro rest _; simp
  | cons c L ih =>
    intro rest hH
    rw [List.cons_append, replacePos_cons, if_neg]
    · rw [ih rest (fun d hd => by
        have := hH (d + 1) (by simpa using Nat.succ_lt_succ hd)
        simpa using this)]
      simp
    · rintro ⟨-, hpre⟩
      have h0 := hH 0 (by simp)
      simp only [List.drop_zero, List.cons_append] at h0
      exact h0 (List.isPrefixOf_iff_prefix.mp hpre)

theorem mem_replacePos (p r : Str) :
    ∀ n (s : Str), s.length ≤ n → ∀ c, c ∈ replacePos p r s → c ∈ s ∨ c ∈ r := by
  intro n
  induction n with
  | zero =>
    intro s hs c hc
    rw [Nat.le_zero, List.length_eq_zero] at hs
    subst hs
    rw [replacePos_nil] at hc
    exact absurd hc (List.not_mem_nil c)
  | succ n ih =>
    intro s hs c hc
    cases s with
    | nil =>
      rw [replacePos_nil] at hc
      exact absurd hc (List.not_mem_nil c)
    | cons a s =>
      rw [replacePos_cons] at hc
      by_cases hb : p ≠ [] ∧ p.isPrefixOf (a :: s)
      · rw [if_pos hb] at hc
        rcases List.mem_append.mp hc with h | h
        · exact Or.inr h
        · have hlen : ((a :: s).drop p.length).length ≤ n := by
            have : 1 ≤ p.length := by
              cases p with
              | nil => exact absurd rfl hb.1
              | cons x q => simp
            simp only [List.length_drop, List.length_cons] at *
            omega
          rcases ih _ hlen c h with h' | h'
          · exact Or.inl (List.mem_of_mem_drop h')
          · exact Or.inr h'
      · rw [if_neg hb] at hc
        rcases List.mem_cons.mp hc with h | h
        · exact Or.inl (h ▸ List.mem_cons_self a s)
        · rcases ih s (by simpa using Nat.lt_succ_iff.mp (Nat.lt_of_lt_of_le (Nat.lt_succ_of_le le_rfl) (by simpa using hs))) c h with h' | h'
          · exact Or.inl (List.mem_cons_of_mem a h')
          · exact Or.inr h'

theorem mem_pyReplace (s p r : Str) (c : Char) (hc : c ∈ pyReplace s p r) :
    c ∈ s ∨ c ∈ r := by
  unfold pyReplace at hc
  by_cases hp : p = []
  · rw [if_pos hp] at hc
    rcases List.mem_append.mp hc with h | h
    · exact Or.inr h
    · rcases List.mem_flatMap.mp h with ⟨x, hx, hcx⟩
      rcases List.mem_cons.mp hcx with h' | h'
      · exact Or.inl (h' ▸ hx)
      · exact Or.inr h'
  · rw [if_neg hp] at hc
    exact mem_replacePos p r s.length s le_rfl c hc

theorem pyReplace_self (s r : Str) : pyReplace s s r = r := by
  unfold pyReplace
  by_cases hp : s = []
  · subst hp; simp
  · rw [if_neg hp]
    have := replacePos_append_pat s r [] hp
    rw [List.append_nil] at this
    rw [this, replacePos_nil, List.append_nil]

theorem pyReplace_of_not_sub (s p r : Str) (hp : p ≠ []) (h : ¬ p <:+: s) :
    pyReplace s p r = s := by
  unfold pyReplace
  rw [if_neg hp]
  exact replacePos_of_not_sub p r s h

/-- A pattern containing a character absent from the text never occurs in it. -/
theorem not_infix_of_mem_not_mem {p s : Str} {c : Char} (hcp : c ∈ p) (hcs : c ∉ s) :
    ¬ p <:+: s :=
  fun hi => hcs (hi.subset hcp)

/-! ### Decimal digit strings (Python `f"{key}"`) -/

def digitChar (d : Nat) : Char :=
  match d with
  | 0 => '0' | 1 => '1' | 2 => '2' | 3 => '3' | 4 => '4'
  | 5 => '5' | 6 => '6' | 7 => '7' | 8 => '8' | _ => '9'

/-- Fuel-driven digit expansion; fuel ≥ value suffices, so `natDigits n`
below is structurally recursive and reduces in the kernel. -/
def natDigitsF : Nat → Nat → Str
  | 0, n => [digitChar n]
  | f + 1, n => if n < 10 then [digitChar n] else natDigitsF f (n / 10) ++ [digitChar (n % 10)]

/-- The decimal digit string of `n` (Python `f"{key}"`). -/
def natDigits (n : Nat) : Str := natDigitsF n n

theorem natDigitsF_congr :
    ∀ n f g, n ≤ f → n ≤ g → natDigitsF f n = natDigitsF g n := by
  intro n
  induction n using Nat.strong_induction_on with
  | _ n ih =>
    intro f g hf hg
    by_cases h10 : n < 10
    · cases f <;> cases g <;> simp [natDigitsF, h10]
    · obtain ⟨f', rfl⟩ : ∃ f', f = f' + 1 := ⟨f - 1, by omega⟩
      obtain ⟨g', rfl⟩ : ∃ g', g = g' + 1 := ⟨g - 1, by omega⟩
      simp only [natDigitsF, if_neg h10]
      rw [ih (n / 10) (Nat.div_lt_self (by omega) (by omega))
        f' g' (by omega) (by omega)]

theorem natDigits_eq (n : Nat) :
    natDigits n = if n < 10 then [digitChar n] else natDigits (n / 10) ++ [digitChar (n % 10)] := by
  by_cases h10 : n < 10
  · rw [if_pos h10]
    unfold natDigits
    cases n <;> simp [natDigitsF, h10]
  · rw [if_neg h10]
    unfold natDigits
    obtain ⟨m, rfl⟩ : ∃ m, n = m + 1 := ⟨n - 1, by omega⟩
    simp only [natDigitsF, if_neg h10]
    rw [natDigitsF_congr ((m + 1) / 10) m ((m + 1) / 10)
      (by have := Nat.div_lt_self (show 0 < m + 1 by omega) (show 1 < 10 by omega); omega) le_rfl]

def digitVal (c : Char) : Nat := c.toNat - 48

def valD (s : Str) : Nat := s.foldl (fun a c => 10 * a + digitVal c) 0

theorem digitChar_isDigit : ∀ d, d < 10 → (digitChar d).isDigit = true := by decide

theorem digitVal_digitChar : ∀ d, d < 10 → digitVal (digitChar d) = d := by decide

theorem natDigits_ne_nil (n : Nat) : natDigits n ≠ [] := by
  rw [natDigits_eq]
  split <;> simp

theorem natDigits_all_digit (n : Nat) : ∀ c ∈ natDigits n, c.isDigit = true := by
  induction n using Nat.strong_induction_on with
  | _ n ih =>
    rw [natDigits_eq]
    split
    · rename_i h
      intro c hc
      rw [List.mem_singleton] at hc
      exact hc ▸ digitChar_isDigit n h
    · rename_i h
      intro c hc
      rcases List.mem_append.mp hc with h' | h'
      · exact ih (n / 10) (Nat.div_lt_self (by omega) (by omega)) c h'
      · rw [List.mem_singleton] at h'
        exact h' ▸ digitChar_isDigit (n % 10) (Nat.mod_lt n (by omega))

theorem valD_natDigits (n : Nat) : valD (natDigits n) = n := by
  induction n using Nat.strong_induction_on with
  | _ n ih =>
    rw [natDigits_eq]
    split
    · rename_i h
      simp [valD, digitVal_digitChar n h]
    · rename_i h
      have hdiv := ih (n / 10) (Nat.div_lt_self (by omega) (by omega))
      unfold valD at *
      rw [List.foldl_append, hdiv]
      simp [digitVal_digitChar (n % 10) (Nat.mod_lt n (by omega))]
      omega

theorem natDigits_injective {a b : Nat} (h : natDigits a = natDigits b) : a = b := by
  have := congrArg valD h
  rwa [valD_natDigits, valD_natDigits] at this

/-! ### The masking layer (`bsiconsbot/textlib.py`)

`mask_text` takes a compiled regex; the `re` engine is an external
collaborator, modelled as a function producing the list of matched substrings
(`regex.findall`, with the first captured group already selected for tuple
matches, as the source does). -/

abbrev MaskStore := List (Nat × Str)

def marker : Str := ("***bot***masked***").data

def ph (k : Nat) : Str := marker ++ natDigits k ++ ("***").data

def pipeTok : Str := ("|***bot***=***param***|").data

def pipeMagic : Str := ("\x7b\x7b!\x7d\x7d").data

/-- `max(mask.keys()) + 1`, or `1` for an empty store. -/
def nextKey (mask : MaskStore) : Nat := (mask.foldl (fun a kv => max a kv.1) 0) + 1

/-- Stable insertion of `m` after all already-placed strings of length ≥ its
own. -/
def insertLenDesc (m : Str) : List Str → List Str
  | [] => [m]
  | x :: xs => if x.length < m.length then m :: x :: xs else x :: insertLenDesc m xs

/-- `sorted(matches, key=len, reverse=True)`: stable sort, longest first. -/
def sortByLenDesc (ms : List Str) : List Str :=
  ms.foldl (fun acc m => insertLenDesc m acc) []

theorem mem_insertLenDesc {x m : Str} :
    ∀ l, x ∈ insertLenDesc m l ↔ x = m ∨ x ∈ l := by
  intro l
  induction l with
  | nil => simp [insertLenDesc]
  | cons y ys ih =>
    simp only [insertLenDesc]
    split
    · simp
    · simp only [List.mem_cons, ih]
      tauto

theorem mem_sortByLenDesc {x : Str} {ms : List Str} :
    x ∈ sortByLenDesc ms ↔ x ∈ ms := by
  suffices h : ∀ (l : List Str) (acc : List Str),
      x ∈ l.foldl (fun acc m => insertLenDesc m acc) acc ↔ x ∈ l ∨ x ∈ acc by
    have := h ms []
    simpa [sortByLenDesc] using this
  intro l
  induction l with
  | nil => simp
  | cons m l ih =>
    intro acc
    simp only [List.foldl_cons, ih, mem_insertLenDesc, List.mem_cons]
    tauto

def maskLoop : Str → MaskStore → Nat → List Str → Str × MaskStore
  | t, st, _, [] => (t, st)
  | t, st, k, m :: ms => maskLoop (pyReplace t m (ph k)) (st ++ [(k, m)]) (k + 1) ms

/-- `mask_text(text, regex, mask)` of `bsiconsbot/textlib.py`. -/
def mask_text (text : Str) (findall : Str → List Str) (mask : MaskStore) :
    Str × MaskStore :=
  maskLoop text mask (nextKey mask) (sortByLenDesc (findall text))

/-- `mask_pipe_mw` of `bsiconsbot/textlib.py`. -/
def mask_pipe_mw (text : Str) : Str := pyReplace text pipeMagic pipeTok

def hasMarker (s : Str) : Bool := decide (marker <:+: s)

/-- One iteration of the `for key, value in mask.items()` body of `unmask_text`. -/
def unmaskPass (store : MaskStore) (s : Str) : Str :=
  store.foldl (fun t kv => pyReplace t (ph kv.1) kv.2) s

/-- The `while text.find(...) > -1` loop of `unmask_text`, with explicit fuel:
`none` models a run that is still looping after `fuel` passes. -/
def unmaskLoop (store : MaskStore) : Nat → Str → Option Str
  | fuel, s =>
    if hasMarker s then
      match fuel with
      | 0 => none
      | f + 1 => unmaskLoop store f (unmaskPass store s)
    else some s

/-- `unmask_text(text, mask)` of `bsiconsbot/textlib.py`: restore the pipe
magic word, then loop substituting every numbered placeholder until no
marker remains. -/
def unmask_text (fuel : Nat) (text : Str) (mask : MaskStore) : Option Str :=
  unmaskLoop mask fuel (pyReplace text pipeTok pipeMagic)

/-- The unmask loop reaches a marker-free state after finitely many passes
(exactly termination of the Python `while` loop). -/
def UnmaskTerminates (mask : MaskStore) (text : Str) : Prop :=
  ∃ n, hasMarker ((unmaskPass mask)^[n] (pyReplace text pipeTok pipeMagic)) = false

/-! ### Round-trip verification of the masking layer

A masked text is an interleaving of untouched text characters and whole
placeholders.  `MaskRel store s t` says that replacing in `s` every
placeholder block of a key of `store` by the corresponding stored value
yields `t`. -/

/-- The characters a numbered placeholder is built from. -/
def blockChar (c : Char) : Bool :=
  c == '*' || c == 'b' || c == 'o' || c == 't' || c == 'm' || c == 'a' ||
    c == 's' || c == 'k' || c == 'e' || c == 'd' || c.isDigit

theorem ph_eq_cons (k : Nat) :
    ph k = '*' :: '*' :: '*' :: 'b' :: 'o' :: 't' :: '*' :: '*' :: '*' :: 'm' ::
      'a' :: 's' :: 'k' :: 'e' :: 'd' :: '*' :: '*' :: '*' :: (natDigits k ++ ['*', '*', '*']) :=
  rfl

theorem marker_length : marker.length = 18 := rfl

theorem ph_length (k : Nat) : (ph k).length = 21 + (natDigits k).length := by
  simp [ph, marker_length]
  omega

theorem mem_marker_blockChar : ∀ c ∈ marker, blockChar c = true := by decide

theorem blockChar_of_digit {c : Char} (h : c.isDigit = true) : blockChar c = true := by
  simp [blockChar, h]

theorem ph_chars (k : Nat) : ∀ c ∈ ph k, blockChar c = true := by
  have hts : ∀ c ∈ ("***").data, blockChar c = true := by decide
  intro c hc
  rcases List.mem_append.mp hc with h | h
  · rcases List.mem_append.mp h with h' | h'
    · exact mem_marker_blockChar c h'
    · exact blockChar_of_digit (natDigits_all_digit k c h')
  · exact hts c h

theorem ph_snoc (k : Nat) :
    ph k = (marker ++ natDigits k ++ ['*', '*']) ++ ['*'] := by
  simp [ph, List.append_assoc]

theorem ph_getElem_last (k : Nat) :
    (ph k)[(ph k).length - 1]? = some '*' := by
  have hlen : ((marker ++ natDigits k ++ ['*', '*']) ++ ['*']).length - 1 =
      (marker ++ natDigits k ++ ['*', '*']).length := by simp
  rw [ph_snoc k, hlen]
  exact List.getElem?_concat_length _ _

/-- `MaskRel store s t`: `s` is `t` with some placeholder blocks of keys of
`store` substituted for their values; text characters are never `'*'`. -/
inductive MaskRel (store : MaskStore) : Str → Str → Prop
  | nil : MaskRel store [] []
  | txt {c : Char} {s t : Str} : c ≠ '*' → MaskRel store s t → MaskRel store (c :: s) (c :: t)
  | blk {k : Nat} {v : Str} {s t : Str} : (k, v) ∈ store → MaskRel store s t →
      MaskRel store (ph k ++ s) (v ++ t)

theorem MaskRel.mono {store store' : MaskStore} (hsub : ∀ kv ∈ store, kv ∈ store')
    {s t : Str} (h : MaskRel store s t) : MaskRel store' s t := by
  induction h with
  | nil => exact MaskRel.nil
  | txt hc _ ih => exact MaskRel.txt hc ih
  | blk hm _ ih => exact MaskRel.blk (hsub _ hm) ih

theorem MaskRel.refl {store : MaskStore} {t : Str} (h : ∀ c ∈ t, c ≠ '*') :
    MaskRel store t t := by
  induction t with
  | nil => exact MaskRel.nil
  | cons c t ih =>
    exact MaskRel.txt (h c (List.mem_cons_self c t)) (ih fun c' hc' => h c' (List.mem_cons_of_mem c hc'))

theorem MaskRel.append_txt {store : MaskStore} {v s t : Str} (hv : ∀ c ∈ v, c ≠ '*')
    (h : MaskRel store s t) : MaskRel store (v ++ s) (v ++ t) := by
  induction v with
  | nil => exact h
  | cons c v ih =>
    exact MaskRel.txt (hv c (List.mem_cons_self c v))
      (ih fun c' hc' => hv c' (List.mem_cons_of_mem c hc'))

theorem MaskRel.eq_of_nil_store {s t : Str} (h : MaskRel [] s t) : s = t := by
  induction h with
  | nil => rfl
  | txt _ _ ih => rw [ih]
  | blk hm _ _ => exact absurd hm (List.not_mem_nil _)

theorem MaskRel.eq_of_no_marker {store : MaskStore} {s t : Str} (h : MaskRel store s t)
    (hnm : ¬ marker <:+: s) : s = t := by
  induction h with
  | nil => rfl
  | txt hc hrel ih =>
    rw [ih (fun hi => hnm (List.infix_cons hi))]
  | blk hm hrel ih =>
    exact absurd ((List.prefix_append marker _).isInfix.trans
      (by rw [ph_eq_cons]; exact (List.prefix_append _ _).isInfix)) hnm

/-- Characters that are neither text characters of `t` nor placeholder
characters do not occur on the masked side. -/
theorem MaskRel.not_mem {store : MaskStore} {s t : Str} (h : MaskRel store s t)
    {c₀ : Char} (ht : c₀ ∉ t) (hb : blockChar c₀ = false) : c₀ ∉ s := by
  induction h with
  | nil => exact List.not_mem_nil c₀
  | txt hc hrel ih =>
    intro hmem
    rcases List.mem_cons.mp hmem with h' | h'
    · exact ht (h' ▸ List.mem_cons_self _ _)
    · exact ih (fun h'' => ht (List.mem_cons_of_mem _ h'')) h'
  | blk hm hrel ih =>
    intro hmem
    rcases List.mem_append.mp hmem with h' | h'
    · rw [ph_chars _ c₀ h'] at hb
      exact absurd hb (by decide)
    · exact ih (fun h'' => ht (List.mem_append_right _ h'')) h'

/-- Splitting a prefix made of two pieces. -/
theorem prefix_append_split {A B s : Str} (h : (A ++ B) <+: s) :
    A <+: s ∧ B <+: s.drop A.length := by
  obtain ⟨tl, rfl⟩ := h
  constructor
  · rw [List.append_assoc]
    exact List.prefix_append A _
  · rw [List.append_assoc, List.drop_left]
    exact List.prefix_append B tl

/-- A star-free prefix of the masked side is literal text, shared with the
unmasked side. -/
theorem MaskRel.dropMatch {store : MaskStore} :
    ∀ (m : Str), (∀ c ∈ m, c ≠ '*') →
      ∀ {s t : Str}, MaskRel store s t → m <+: s →
        m <+: t ∧ MaskRel store (s.drop m.length) (t.drop m.length) := by
  intro m
  induction m with
  | nil => intro _ s t h _; exact ⟨List.nil_prefix, by simpa using h⟩
  | cons a m ih =>
    intro hstar s t h hpre
    cases h with
    | nil => exact absurd hpre (by simp)
    | txt hc hrel =>
      rw [List.cons_prefix_cons] at hpre
      obtain ⟨rfl, hpre'⟩ := hpre
      obtain ⟨h1, h2⟩ := ih (fun c hc' => hstar c (List.mem_cons_of_mem _ hc')) hrel hpre'
      exact ⟨List.cons_prefix_cons.mpr ⟨rfl, h1⟩, by simpa using h2⟩
    | blk hm hrel =>
      rw [ph_eq_cons] at hpre
      rw [List.cons_append, List.cons_prefix_cons] at hpre
      exact absurd hpre.1 (hstar a (List.mem_cons_self a m))

/-- The masked side can only start with `'*'` at a placeholder block. -/
theorem MaskRel.star_head {store : MaskStore} {s t w : Str} (h : MaskRel store s t)
    (hpre : ('*' :: w) <+: s) : ∃ i s₁ t₁, s = ph i ++ s₁ ∧ MaskRel store s₁ t₁ := by
  cases h with
  | nil => exact absurd hpre (by simp)
  | txt hc hrel =>
    rw [List.cons_prefix_cons] at hpre
    exact absurd hpre.1.symm hc
  | blk hm hrel => exact ⟨_, _, _, rfl, hrel⟩

/-- A pattern with a non-placeholder character and no star never starts
strictly inside (or at the head of) a placeholder block. -/
theorem no_match_inside_ph {m : Str} (hstar : ∀ c ∈ m, c ≠ '*')
    (hspec : ∃ c ∈ m, blockChar c = false) (k : Nat) (rest : Str) :
    ∀ d, d < (ph k).length → ¬ m <+: ((ph k).drop d ++ rest) := by
  intro d hd hpre
  obtain ⟨x, hxm, hxb⟩ := hspec
  obtain ⟨i, hi, hieq⟩ := List.mem_iff_getElem.mp hxm
  by_cases hcase : d + i < (ph k).length
  · have hidrop : i < ((ph k).drop d).length := by
      rw [List.length_drop]; omega
    have h1 := hpre.getElem hi
    rw [List.getElem_append_left hidrop, List.getElem_drop] at h1
    have hmem : (ph k)[d + i] ∈ ph k := List.getElem_mem _
    rw [← h1, hieq] at hmem
    rw [ph_chars k x hmem] at hxb
    exact absurd hxb (by decide)
  · have hj : (ph k).length - 1 - d < m.length := by omega
    have hjdrop : (ph k).length - 1 - d < ((ph k).drop d).length := by
      rw [List.length_drop]; omega
    have h1 := hpre.getElem hj
    rw [List.getElem_append_left hjdrop, List.getElem_drop] at h1
    have hidx : d + ((ph k).length - 1 - d) = (ph k).length - 1 := by omega
    have hb2 : d + ((ph k).length - 1 - d) < (ph k).length := by omega
    have hlast : (ph k)[d + ((ph k).length - 1 - d)]? = some '*' := by
      rw [hidx]; exact ph_getElem_last k
    rw [List.getElem?_eq_getElem hb2] at hlast
    have hsm : '*' ∈ m := by
      have h2 : m[(ph k).length - 1 - d] = '*' := by
        rw [h1]
        exact Option.some.inj hlast
      rw [← h2]
      exact List.getElem_mem _
    exact hstar '*' hsm rfl

theorem digits_star_not_pre :
    ∀ (a : Str), ∀ (b x y : Str), a ≠ b → (∀ c ∈ a, c.isDigit = true) →
      (∀ c ∈ b, c.isDigit = true) → ¬ (a ++ '*' :: x) <+: (b ++ '*' :: y) := by
  intro a
  induction a with
  | nil =>
    intro b x y hne ha hb hpre
    cases b with
    | nil => exact hne rfl
    | cons c b' =>
      simp only [List.nil_append, List.cons_append, List.cons_prefix_cons] at hpre
      have hdig := hb c (List.mem_cons_self _ _)
      rw [← hpre.1] at hdig
      exact absurd hdig (by decide)
  | cons c a' ih =>
    intro b x y hne ha hb hpre
    cases b with
    | nil =>
      simp only [List.cons_append, List.nil_append, List.cons_prefix_cons] at hpre
      have hdig := ha c (List.mem_cons_self _ _)
      rw [hpre.1] at hdig
      exact absurd hdig (by decide)
    | cons c₂ b' =>
      simp only [List.cons_append, List.cons_prefix_cons] at hpre
      obtain ⟨rfl, hpre'⟩ := hpre
      exact ih b' x y (fun h => hne (by rw [h])) (fun c' h => ha c' (List.mem_cons_of_mem _ h))
        (fun c' h => hb c' (List.mem_cons_of_mem _ h)) hpre'

/-- A prefix determines initial segments. -/
theorem take_eq_of_pre {m Y : Str} (hm : m <+: Y) {n : Nat} (hn : n ≤ m.length) :
    m.take n = Y.take n := by
  obtain ⟨t, rfl⟩ := hm
  rw [List.take_append_of_le_length hn]

theorem marker_cons :
    marker = '*' :: '*' :: '*' :: 'b' :: 'o' :: 't' :: '*' :: '*' :: '*' :: 'm' ::
      'a' :: 's' :: 'k' :: 'e' :: 'd' :: '*' :: '*' :: '*' :: [] := rfl

/-- The placeholder of `k` never occurs strictly inside a placeholder block of
`j`, nor at the head of a block of a different key, when the block is followed
by well-formed masked text. -/
theorem no_ph_inside_ph {store : MaskStore} {s' t' : Str} (hrel : MaskRel store s' t')
    (k j : Nat) :
    ∀ d, d < (ph j).length → (d = 0 → j ≠ k) → ¬ ph k <+: ((ph j).drop d ++ s') := by
  intro d hd h0 hpre
  rw [ph_length] at hd
  by_cases hd0 : d = 0
  · subst hd0
    have hjk : j ≠ k := h0 rfl
    simp only [List.drop_zero] at hpre
    have hre : ph k = marker ++ (natDigits k ++ ('*' :: '*' :: '*' :: [])) := by
      rw [ph, List.append_assoc]
    have hre2 : ph j ++ s' = marker ++ (natDigits j ++ ('*' :: '*' :: '*' :: s')) := by
      rw [ph, List.append_assoc, List.append_assoc]
      simp
    rw [hre, hre2, List.prefix_append_right_inj] at hpre
    exact digits_star_not_pre (natDigits k) (natDigits j) _ _
      (fun h => hjk (natDigits_injective h).symm)
      (natDigits_all_digit k) (natDigits_all_digit j) hpre
  · obtain ⟨c, nd', hndj⟩ := List.exists_cons_of_ne_nil (natDigits_ne_nil j)
    have hcdig : c.isDigit = true :=
      natDigits_all_digit j c (by rw [hndj]; exact List.mem_cons_self _ _)
    have hcnstar : c ≠ '*' := by
      intro h
      rw [h] at hcdig
      exact absurd hcdig (by decide)
    by_cases hd18 : d < 18
    · -- inside the leading marker region
      have hmpre : marker <+: ph k := by
        rw [ph, List.append_assoc]
        exact List.prefix_append marker _
      have hsplit : (ph j).drop d ++ s' =
          marker.drop d ++ (natDigits j ++ ('*' :: '*' :: '*' :: s')) := by
        have h1 : ph j = marker ++ (natDigits j ++ ('*' :: '*' :: '*' :: [])) := by
          rw [ph, List.append_assoc]
        rw [h1, List.drop_append_of_le_length (by rw [marker_length]; omega)]
        rw [List.append_assoc]
        simp
      rw [hsplit] at hpre
      have hY := hmpre.trans hpre
      by_cases hd14 : d ≤ 14
      · -- the shifted marker never matches its own prefix here
        have htake : marker.take (18 - d) =
            (marker.drop d ++ (natDigits j ++ ('*' :: '*' :: '*' :: s'))).take (18 - d) :=
          take_eq_of_pre hY (by rw [marker_length]; omega)
        rw [List.take_append_of_le_length (by rw [List.length_drop, marker_length])] at htake
        have hfull : (marker.drop d).take (18 - d) = marker.drop d :=
          List.take_of_length_le (by rw [List.length_drop, marker_length])
        rw [hfull] at htake
        have hno : marker.take (18 - d) ≠ marker.drop d := by
          have h1d : 1 ≤ d := by omega
          interval_cases d <;> decide
        exact hno htake
      · -- d ∈ {15, 16, 17}: a marker character faces the first key digit
        rw [hndj] at hY
        have h15 : 15 ≤ d := by omega
        interval_cases d <;>
        · rw [marker_cons] at hY
          simp only [show ∀ x : Str, List.drop 15 ('*' :: '*' :: '*' :: 'b' :: 'o' :: 't' :: '*' ::
              '*' :: '*' :: 'm' :: 'a' :: 's' :: 'k' :: 'e' :: 'd' :: '*' :: '*' :: '*' :: x) =
              '*' :: '*' :: '*' :: x from fun _ => rfl,
            show ∀ x : Str, List.drop 16 ('*' :: '*' :: '*' :: 'b' :: 'o' :: 't' :: '*' ::
              '*' :: '*' :: 'm' :: 'a' :: 's' :: 'k' :: 'e' :: 'd' :: '*' :: '*' :: '*' :: x) =
              '*' :: '*' :: x from fun _ => rfl,
            show ∀ x : Str, List.drop 17 ('*' :: '*' :: '*' :: 'b' :: 'o' :: 't' :: '*' ::
              '*' :: '*' :: 'm' :: 'a' :: 's' :: 'k' :: 'e' :: 'd' :: '*' :: '*' :: '*' :: x) =
              '*' :: x from fun _ => rfl,
            List.cons_append, List.nil_append, List.cons_prefix_cons, true_and] at hY
          first
          | exact hcnstar hY.1.symm
          | exact hcnstar hY.2.1.symm
          | exact hcnstar hY.2.2.1.symm
          | exact hcnstar hY.2.2.2.1.symm
          | (rw [← hY.1] at hcdig; exact absurd hcdig (by decide))
    · by_cases hdig : d < 18 + (natDigits j).length
      · -- inside the digit run: the head of the match would be a digit
        have hDne : (natDigits j).drop (d - 18) ≠ [] := by
          intro h
          have hlen := congrArg List.length h
          rw [List.length_drop] at hlen
          simp only [List.length_nil] at hlen
          omega
        obtain ⟨c2, l2, hD⟩ := List.exists_cons_of_ne_nil hDne
        have hc2dig : c2.isDigit = true :=
          natDigits_all_digit j c2 (List.mem_of_mem_drop (hD ▸ List.mem_cons_self _ _))
        have hsplit : (ph j).drop d ++ s' = c2 :: (l2 ++ ('*' :: '*' :: '*' :: s')) := by
          have h1 : ph j = (marker ++ natDigits j) ++ ('*' :: '*' :: '*' :: []) := by
            rw [ph]
          have h2 : d = (marker).length + (d - 18) := by rw [marker_length]; omega
          rw [h1, List.drop_append_of_le_length (by simp [marker_length]; omega), h2,
            List.drop_append, hD]
          simp
        rw [hsplit, ph_eq_cons, List.cons_prefix_cons] at hpre
        rw [← hpre.1] at hc2dig
        exact absurd hc2dig (by decide)
      · -- inside the three final stars: walk into the following masked text
        obtain ⟨e, rfl⟩ : ∃ e, d = 18 + (natDigits j).length + e :=
          ⟨d - (18 + (natDigits j).length), by omega⟩
        have he3 : e < 3 := by omega
        have hsplit : (ph j).drop (18 + (natDigits j).length + e) =
            ('*' :: '*' :: '*' :: ([] : Str)).drop e := by
          have h1 : ph j = (marker ++ natDigits j) ++ ('*' :: '*' :: '*' :: []) := by
            rw [ph]
          have h2 : 18 + (natDigits j).length + e = (marker ++ natDigits j).length + e := by
            simp [marker_length]
          rw [h1, h2, List.drop_append]
        rw [hsplit] at hpre
        interval_cases e
        · -- the block ends exactly here: "bot" must be text, then a block with 'b' ≠ 'm'
          simp only [List.drop_zero, List.cons_append, List.nil_append] at hpre
          rw [ph_eq_cons] at hpre
          simp only [List.cons_prefix_cons, true_and] at hpre
          have hAB : (['b', 'o', 't'] ++ ('*' :: '*' :: '*' :: 'm' :: 'a' :: 's' :: 'k' :: 'e' ::
              'd' :: '*' :: '*' :: '*' :: (natDigits k ++ ['*', '*', '*']))) <+: s' := hpre
          obtain ⟨hA, hB⟩ := prefix_append_split hAB
          obtain ⟨-, hrel3⟩ := MaskRel.dropMatch ['b', 'o', 't'] (by decide) hrel hA
          obtain ⟨i, s₁, t₁, heq, -⟩ := hrel3.star_head hB
          rw [heq, ph_eq_cons i] at hB
          simp only [List.cons_append, List.cons_prefix_cons, true_and] at hB
          exact absurd hB.1 (by decide)
        · simp only [List.drop_succ_cons, List.drop_zero, List.cons_append, List.nil_append] at hpre
          rw [ph_eq_cons] at hpre
          simp only [List.cons_prefix_cons, true_and] at hpre
          obtain ⟨i, s₁, t₁, heq, -⟩ := hrel.star_head hpre
          rw [heq, ph_eq_cons i] at hpre
          simp only [List.cons_append, List.cons_prefix_cons, true_and] at hpre
          exact absurd hpre.1 (by decide)
        · simp only [List.drop_succ_cons, List.drop_zero, List.cons_append, List.nil_append] at hpre
          rw [ph_eq_cons] at hpre
          simp only [List.cons_prefix_cons, true_and] at hpre
          obtain ⟨i, s₁, t₁, heq, -⟩ := hrel.star_head hpre
          rw [heq, ph_eq_cons i] at hpre
          simp only [List.cons_append, List.cons_prefix_cons, true_and] at hpre
          exact absurd hpre.1 (by decide)

/-! ### The mask and unmask steps preserve `MaskRel` -/

theorem pyReplace_nil_text {p : Str} (r : Str) (hp : p ≠ []) : pyReplace [] p r = [] := by
  unfold pyReplace
  rw [if_neg hp]
  exact replacePos_nil p r

theorem pyReplace_append_pat {p : Str} (r rest : Str) (hp : p ≠ []) :
    pyReplace (p ++ rest) p r = r ++ pyReplace rest p r := by
  unfold pyReplace
  rw [if_neg hp, if_neg hp]
  exact replacePos_append_pat p r rest hp

theorem pyReplace_cons_no {p : Str} (c : Char) (s r : Str) (hp : p ≠ [])
    (hpre : ¬ p <+: (c :: s)) : pyReplace (c :: s) p r = c :: pyReplace s p r := by
  unfold pyReplace
  rw [if_neg hp, if_neg hp, replacePos_cons, if_neg]
  rintro ⟨-, h⟩
  exact hpre (List.isPrefixOf_iff_prefix.mp h)

theorem pyReplace_skip {p : Str} (r L rest : Str) (hp : p ≠ [])
    (H : ∀ d, d < L.length → ¬ p <+: (L.drop d ++ rest)) :
    pyReplace (L ++ rest) p r = L ++ pyReplace rest p r := by
  unfold pyReplace
  rw [if_neg hp, if_neg hp]
  exact replacePos_skip p r L rest H

theorem ph_ne_nil (k : Nat) : ph k ≠ [] := by
  rw [ph_eq_cons]
  simp

/-- Replacing one more regex match preserves the unmasking relation (with the
match recorded in the store). -/
theorem maskStep {store : MaskStore} {m : Str} {k : Nat}
    (hm : m ≠ []) (hstar : ∀ c ∈ m, c ≠ '*')
    (hspec : ∃ c ∈ m, blockChar c = false) :
    ∀ n s t, s.length ≤ n → MaskRel store s t →
      MaskRel (store ++ [(k, m)]) (pyReplace s m (ph k)) t := by
  intro n
  induction n using Nat.strong_induction_on with
  | _ n ih =>
    intro s t hsn hrel
    have hmono : ∀ kv ∈ store, kv ∈ store ++ [(k, m)] := fun kv h => List.mem_append_left _ h
    by_cases hpre : m <+: s
    · obtain ⟨hmt, hreld⟩ := MaskRel.dropMatch m hstar hrel hpre
      obtain ⟨srest, rfl⟩ := hpre
      obtain ⟨trest, rfl⟩ := hmt
      rw [List.drop_left, List.drop_left] at hreld
      rw [pyReplace_append_pat _ _ hm]
      have hm1 : 1 ≤ m.length := by
        cases m with
        | nil => exact absurd rfl hm
        | cons a q => simp
      have hlt : srest.length < n := by
        rw [List.length_append] at hsn
        omega
      exact MaskRel.blk (List.mem_append_right _ (List.mem_singleton.mpr rfl))
        (ih srest.length hlt srest trest le_rfl hreld)
    · cases hrel with
      | nil =>
        rw [pyReplace_nil_text _ hm]
        exact MaskRel.nil
      | txt hc hrel' =>
        rename_i c s₁ t₁
        rw [pyReplace_cons_no _ _ _ hm hpre]
        have hlt : s₁.length < n := by
          rw [List.length_cons] at hsn
          omega
        exact MaskRel.txt hc (ih s₁.length hlt s₁ t₁ le_rfl hrel')
      | blk hmem hrel' =>
        rename_i i v s₁ t₁
        rw [pyReplace_skip _ _ _ hm (no_match_inside_ph hstar hspec i s₁)]
        have hlt : s₁.length < n := by
          rw [List.length_append] at hsn
          have := List.length_pos.mpr (ph_ne_nil i)
          omega
        exact MaskRel.blk (hmono _ hmem) (ih s₁.length hlt s₁ t₁ le_rfl hrel')

theorem store_val_unique {store : MaskStore} (hnd : (store.map Prod.fst).Nodup)
    {k : Nat} {v v' : Str} (h1 : (k, v) ∈ store) (h2 : (k, v') ∈ store) : v = v' := by
  induction store with
  | nil => exact absurd h1 (List.not_mem_nil _)
  | cons kv rest ih =>
    rw [List.map_cons, List.nodup_cons] at hnd
    rcases List.mem_cons.mp h1 with h1' | h1' <;> rcases List.mem_cons.mp h2 with h2' | h2'
    · rw [← h2'] at h1'
      exact congrArg Prod.snd h1'
    · exfalso
      apply hnd.1
      rw [← h1']
      exact List.mem_map.mpr ⟨(k, v'), h2', rfl⟩
    · exfalso
      apply hnd.1
      rw [← h2']
      exact List.mem_map.mpr ⟨(k, v), h1', rfl⟩
    · exact ih hnd.2 h1' h2'

/-- Restoring one placeholder preserves the unmasking relation with the
corresponding store entry discharged. -/
theorem unmaskStep {store : MaskStore} {k₀ : Nat} {v₀ : Str}
    (hmem : (k₀, v₀) ∈ store) (hnd : (store.map Prod.fst).Nodup)
    (hstar : ∀ kv ∈ store, ∀ c ∈ kv.2, c ≠ '*') :
    ∀ n s t, s.length ≤ n → MaskRel store s t →
      MaskRel (store.filter (fun kv => kv.1 != k₀)) (pyReplace s (ph k₀) v₀) t := by
  intro n
  induction n using Nat.strong_induction_on with
  | _ n ih =>
    intro s t hsn hrel
    cases hrel with
    | nil =>
      rw [pyReplace_nil_text _ (ph_ne_nil k₀)]
      exact MaskRel.nil
    | txt hc hrel' =>
      rename_i c s₁ t₁
      rw [pyReplace_cons_no _ _ _ (ph_ne_nil k₀) (by
        rw [ph_eq_cons, List.cons_prefix_cons]
        rintro ⟨h, -⟩
        exact hc h.symm)]
      have hlt : s₁.length < n := by
        rw [List.length_cons] at hsn
        omega
      exact MaskRel.txt hc (ih s₁.length hlt s₁ t₁ le_rfl hrel')
    | blk hmemi hrel' =>
      rename_i i v s₁ t₁
      have hlt : s₁.length < n := by
        rw [List.length_append] at hsn
        have := List.length_pos.mpr (ph_ne_nil i)
        omega
      by_cases hik : i = k₀
      · subst hik
        have hv : v = v₀ := store_val_unique hnd hmemi hmem
        subst hv
        rw [pyReplace_append_pat _ _ (ph_ne_nil i)]
        exact MaskRel.append_txt (hstar _ hmemi) (ih s₁.length hlt s₁ t₁ le_rfl hrel')
      · rw [pyReplace_skip _ _ _ (ph_ne_nil k₀)
          (fun d hd => no_ph_inside_ph hrel' k₀ i d hd (fun _ => hik))]
        exact MaskRel.blk (List.mem_filter.mpr ⟨hmemi, by simp [hik]⟩)
          (ih s₁.length hlt s₁ t₁ le_rfl hrel')

/-- One pass of the unmask loop restores the original text. -/
theorem unmaskPass_eq {t : Str} :
    ∀ (store : MaskStore), (store.map Prod.fst).Nodup →
      (∀ kv ∈ store, ∀ c ∈ kv.2, c ≠ '*') →
      ∀ s, MaskRel store s t → unmaskPass store s = t := by
  intro store
  induction store with
  | nil =>
    intro _ _ s hrel
    exact hrel.eq_of_nil_store
  | cons kv rest ih =>
    intro hnd hstar s hrel
    obtain ⟨k, v⟩ := kv
    have hstep := @unmaskStep ((k, v) :: rest) k v
      (List.mem_cons_self _ _) hnd hstar s.length s t le_rfl hrel
    have hknotin : k ∉ rest.map Prod.fst := by
      rw [List.map_cons, List.nodup_cons] at hnd
      exact hnd.1
    have hfilter : ((k, v) :: rest).filter (fun kv => kv.1 != k) = rest := by
      rw [List.filter_cons, if_neg (by simp)]
      exact List.filter_eq_self.mpr (fun kv hkv => by
        simp only [bne_iff_ne, ne_eq, decide_eq_true_eq]
        intro h
        exact hknotin (h ▸ List.mem_map_of_mem Prod.fst hkv))
    rw [hfilter] at hstep
    have hndr : (rest.map Prod.fst).Nodup := by
      rw [List.map_cons, List.nodup_cons] at hnd
      exact hnd.2
    exact ih hndr (fun kv hkv => hstar kv (List.mem_cons_of_mem _ hkv)) _ hstep

/-- Invariant of the `mask_text` fold. -/
theorem maskLoop_inv {t : Str} :
    ∀ (ms : List Str) (s : Str) (store : MaskStore) (key : Nat),
      MaskRel store s t →
      (store.map Prod.fst).Nodup →
      (∀ kv ∈ store, kv.1 < key) →
      (∀ kv ∈ store, ∀ c ∈ kv.2, c ≠ '*') →
      (∀ m ∈ ms, m ≠ [] ∧ (∀ c ∈ m, c ≠ '*') ∧ ∃ c ∈ m, blockChar c = false) →
      MaskRel (maskLoop s store key ms).2 (maskLoop s store key ms).1 t ∧
        ((maskLoop s store key ms).2.map Prod.fst).Nodup ∧
        (∀ kv ∈ (maskLoop s store key ms).2, ∀ c ∈ kv.2, c ≠ '*') := by
  intro ms
  induction ms with
  | nil =>
    intro s store key h hnd hbound hstar hms
    exact ⟨h, hnd, hstar⟩
  | cons m ms ih =>
    intro s store key h hnd hbound hstar hms
    obtain ⟨hm1, hm2, hm3⟩ := hms m (List.mem_cons_self _ _)
    have hstep : MaskRel (store ++ [(key, m)]) (pyReplace s m (ph key)) t :=
      maskStep hm1 hm2 hm3 s.length s t le_rfl h
    refine ih _ _ _ hstep ?_ ?_ ?_ (fun m' hm' => hms m' (List.mem_cons_of_mem _ hm'))
    · rw [List.map_append]
      refine List.Nodup.append hnd (by simp) ?_
      intro a ha ha2
      simp only [List.map_cons, List.map_nil, List.mem_singleton] at ha2
      subst ha2
      obtain ⟨kv, hkv, hfst⟩ := List.mem_map.mp ha
      have hlt := hbound kv hkv
      rw [hfst] at hlt
      exact lt_irrefl _ hlt
    · intro kv hkv
      rcases List.mem_append.mp hkv with h' | h'
      · exact Nat.lt_succ_of_lt (hbound kv h')
      · rw [List.mem_singleton] at h'
        rw [h']
        exact Nat.lt_succ_self key
    · intro kv hkv
      rcases List.mem_append.mp hkv with h' | h'
      · exact hstar kv h'
      · rw [List.mem_singleton] at h'
        rw [h']
        exact hm2

theorem hasMarker_false_of_star_free {s : Str} (h : '*' ∉ s) : hasMarker s = false := by
  unfold hasMarker
  rw [decide_eq_false_iff_not]
  exact not_infix_of_mem_not_mem (show '*' ∈ marker by decide) h

/-- The common core behind the round-trip and termination results: on star-free
and equals-free input text, with every match nonempty, star-free and containing
a character outside the placeholder alphabet, masking then a single unmask pass
restores the input exactly. -/
theorem mask_roundtrip_core {t : Str} (findall : Str → List Str)
    (hT : ∀ c ∈ t, c ≠ '*' ∧ c ≠ '=')
    (hM : ∀ m ∈ findall t, m ≠ [] ∧ (∀ c ∈ m, c ≠ '*') ∧ ∃ c ∈ m, blockChar c = false) :
    pyReplace (mask_text t findall []).1 pipeTok pipeMagic = (mask_text t findall []).1 ∧
      unmaskPass (mask_text t findall []).2 (mask_text t findall []).1 = t ∧
      (¬ hasMarker (mask_text t findall []).1 = true → (mask_text t findall []).1 = t) ∧
      hasMarker t = false := by
  have hms : ∀ m ∈ sortByLenDesc (findall t),
      m ≠ [] ∧ (∀ c ∈ m, c ≠ '*') ∧ ∃ c ∈ m, blockChar c = false :=
    fun m hm => hM m (mem_sortByLenDesc.mp hm)
  have hrel0 : MaskRel ([] : MaskStore) t t := MaskRel.refl (fun c hc => (hT c hc).1)
  obtain ⟨hrel, hnd, hstar⟩ :=
    @maskLoop_inv t (sortByLenDesc (findall t)) t [] (nextKey [])
      hrel0 (by simp) (by simp) (by simp) hms
  have hmasked : (mask_text t findall []).1 =
      (maskLoop t [] (nextKey []) (sortByLenDesc (findall t))).1 := rfl
  have hstore : (mask_text t findall []).2 =
      (maskLoop t [] (nextKey []) (sortByLenDesc (findall t))).2 := rfl
  rw [hmasked, hstore]
  have hnoeq : '=' ∉ (maskLoop t [] (nextKey []) (sortByLenDesc (findall t))).1 :=
    hrel.not_mem (fun h => (hT '=' h).2 rfl) (by decide)
  refine ⟨?_, ?_, ?_, ?_⟩
  · exact pyReplace_of_not_sub _ _ _ (by decide)
      (not_infix_of_mem_not_mem (show '=' ∈ pipeTok by decide) hnoeq)
  · exact unmaskPass_eq _ hnd hstar _ hrel
  · intro hnm
    refine hrel.eq_of_no_marker ?_
    intro hinf
    apply hnm
    unfold hasMarker
    rw [decide_eq_true_iff]
    exact hinf
  · exact hasMarker_false_of_star_free (fun h => (hT '*' h).1 rfl)

/-! ### Claim C1: mask/unmask round-trip -/

/-- C1 (counterexample): the round-trip fails as stated.  The input text
`|***bot***=***param***|` does not contain the placeholder marker
`***bot***masked***`, and a pattern with no matches masks it to itself, yet
`unmask_text` rewrites it to `{{!}}` because the pipe magic-word placeholder
is restored unconditionally. -/
theorem claim_C1_counterexample :
    hasMarker pipeTok = false ∧
    unmask_text 1 (mask_text pipeTok (fun _ => []) []).1
      (mask_text pipeTok (fun _ => []) []).2 = some pipeMagic ∧
    pipeMagic ≠ pipeTok := by
  refine ⟨by decide, ?_, by decide⟩
  show unmask_text 1 pipeTok [] = some pipeMagic
  unfold unmask_text
  rw [pyReplace_self]
  decide

/-- C1 (amended): `unmask_text(mask_text(text, pattern)) = text` for every text
containing neither `'*'` nor `'='` (hence neither the placeholder marker nor
the pipe placeholder), whenever every match of the pattern is nonempty,
star-free and contains at least one character outside the placeholder alphabet
(stars, the letters of `botmasked`, digits); the loop needs a single pass. -/
theorem claim_C1_mask_unmask_roundtrip (t : Str) (findall : Str → List Str)
    (hT : ∀ c ∈ t, c ≠ '*' ∧ c ≠ '=')
    (hM : ∀ m ∈ findall t, m ≠ [] ∧ (∀ c ∈ m, c ≠ '*') ∧ ∃ c ∈ m, blockChar c = false) :
    unmask_text 1 (mask_text t findall []).1 (mask_text t findall []).2 = some t := by
  obtain ⟨hpipe, hpass, hnomark, hT2⟩ := mask_roundtrip_core findall hT hM
  unfold unmask_text
  rw [hpipe, unmaskLoop]
  by_cases hmk : hasMarker (mask_text t findall []).1 = true
  · rw [if_pos hmk]
    show unmaskLoop _ 0 (unmaskPass _ _) = some t
    rw [hpass, unmaskLoop, hT2]
    simp
  · rw [if_neg hmk, hnomark hmk]

theorem claim_C1_roundtrip_witness :
    unmask_text 1
      (mask_text ("a<b>c").data (fun _ => [['<', 'b', '>']]) []).1
      (mask_text ("a<b>c").data (fun _ => [['<', 'b', '>']]) []).2 =
      some ("a<b>c").data :=
  claim_C1_mask_unmask_roundtrip ("a<b>c").data (fun _ => [['<', 'b', '>']])
    (by decide) (by decide)

/-! ### Claim C9: termination of the unmask loop -/

/-- C9 (counterexample): the unmask loop need not terminate even when no mask
value equals or contains its own placeholder.  On the text consisting of the
bare marker with store `{1 ↦ "a"}`, every pass is the identity and the marker
never disappears. -/
theorem claim_C9_counterexample :
    (∀ kv ∈ ([(1, ['a'])] : MaskStore), ¬ ph kv.1 <:+: kv.2) ∧
    ¬ UnmaskTerminates [(1, ['a'])] marker := by
  constructor
  · decide
  · rintro ⟨n, hn⟩
    have hfix : ∀ m, (unmaskPass [(1, ['a'])])^[m] (pyReplace marker pipeTok pipeMagic) = marker := by
      intro m
      induction m with
      | zero =>
        rw [Function.iterate_zero_apply]
        decide
      | succ m ih =>
        rw [Function.iterate_succ_apply', ih]
        decide
    rw [hfix n] at hn
    exact absurd hn (by decide)

/-- C9 (amended): the unmask loop terminates (in a single pass) on every output
of `mask_text` whose input text contains neither `'*'` nor `'='` and whose
matches are nonempty, star-free and contain a character outside the
placeholder alphabet. -/
theorem claim_C9_unmask_terminates (t : Str) (findall : Str → List Str)
    (hT : ∀ c ∈ t, c ≠ '*' ∧ c ≠ '=')
    (hM : ∀ m ∈ findall t, m ≠ [] ∧ (∀ c ∈ m, c ≠ '*') ∧ ∃ c ∈ m, blockChar c = false) :
    UnmaskTerminates (mask_text t findall []).2 (mask_text t findall []).1 := by
  obtain ⟨hpipe, hpass, -, hT2⟩ := mask_roundtrip_core findall hT hM
  exact ⟨1, by rw [Function.iterate_one, hpipe, hpass]; exact hT2⟩

theorem claim_C9_terminates_witness :
    UnmaskTerminates
      (mask_text ("x<i>y").data (fun _ => [['<', 'i', '>']]) []).2
      (mask_text ("x<i>y").data (fun _ => [['<', 'i', '>']]) []).1 :=
  claim_C9_unmask_terminates ("x<i>y").data (fun _ => [['<', 'i', '>']])
    (by decide) (by decide)

/-! ### Icon identity model (`bsiconsbot/page.py`, class `BSiconPage`) -/

/-- A BSicon file description page, identified by its normalized title without
namespace and with underscores (pywikibot `title(underscore=True,
with_ns=False)`).  The File namespace is implicit: `BSiconPage` is a
`FilePage`, and pywikibot resolves a namespace-less title into it. -/
structure BSiconPage where
  title : Str
deriving DecidableEq

/-- `BSiconPage.PREFIX`. -/
def bsPre : Str := ("BSicon_").data

/-- `BSiconPage.SUFFIX`. -/
def bsSuf : Str := (".svg").data

/-- `BSiconPage.__init__(source, name=n)`: build the title
`BSicon_<n>.svg`, let pywikibot normalize it (the `normalize` oracle models
title normalization), and validate that the result still starts with the
prefix and ends with the suffix; otherwise `ValueError` (`none`). -/
def mkBSiconPage (normalize : Str → Str) (name : Str) : Option BSiconPage :=
  let t := normalize (bsPre ++ name ++ bsSuf)
  if bsPre.isPrefixOf t && bsSuf.isSuffixOf t then some ⟨t⟩ else none

/-- `BSiconPage.name`: `title[len(PREFIX):-len(SUFFIX)]`. -/
def BSiconPage.name (p : BSiconPage) : Str :=
  (p.title.drop bsPre.length).take (p.title.length - bsPre.length - bsSuf.length)

/-- C10: building an icon identity from a name `n` yields the title
`BSicon_<n>.svg` (in the File namespace), and its `name` property returns
exactly `n`, provided pywikibot title normalization leaves the title
unchanged. -/
theorem claim_C10_icon_name_roundtrip (n : Str) (normalize : Str → Str)
    (hnorm : normalize (bsPre ++ n ++ bsSuf) = bsPre ++ n ++ bsSuf) :
    mkBSiconPage normalize n = some ⟨bsPre ++ n ++ bsSuf⟩ ∧
      (BSiconPage.mk (bsPre ++ n ++ bsSuf)).name = n := by
  constructor
  · unfold mkBSiconPage
    rw [hnorm, if_pos]
    rw [Bool.and_eq_true]
    constructor
    · exact List.isPrefixOf_iff_prefix.mpr (by
        rw [List.append_assoc]
        exact List.prefix_append bsPre _)
    · exact List.isSuffixOf_iff_suffix.mpr (List.suffix_append _ bsSuf)
  · unfold BSiconPage.name
    have h1 : (bsPre ++ n ++ bsSuf).drop bsPre.length = n ++ bsSuf := by
      rw [List.append_assoc, List.drop_left]
    have h2 : (bsPre ++ n ++ bsSuf).length - bsPre.length - bsSuf.length = n.length := by
      simp [List.length_append]
    rw [h1, h2, List.take_left]

theorem claim_C10_witness :
    mkBSiconPage id ("exABC").data = some ⟨bsPre ++ ("exABC").data ++ bsSuf⟩ ∧
      (BSiconPage.mk (bsPre ++ ("exABC").data ++ bsSuf)).name = ("exABC").data :=
  claim_C10_icon_name_roundtrip ("exABC").data id rfl

/-! ### Wiki-text utilities used by the rewriters -/

/-- Whitespace characters stripped by Python `str.strip()` (ASCII subset). -/
def isSpace (c : Char) : Bool :=
  c == ' ' || c == '\t' || c == '\n' || c == '\r' || c == '\x0b' || c == '\x0c'

/-- Python `str.strip()`. -/
def pyStrip (s : Str) : Str :=
  ((s.dropWhile isSpace).reverse.dropWhile isSpace).reverse

def commentOpen : Str := ("<!--").data

def commentClose : Str := ("-->").data

/-- Scan forward to the closing `-->` and drop it; `none` when unclosed. -/
def dropToClose : Str → Option Str
  | [] => none
  | c :: s => if commentClose.isPrefixOf (c :: s) then some ((c :: s).drop 3) else dropToClose s

theorem dropToClose_length : ∀ l r, dropToClose l = some r → r.length ≤ l.length := by
  intro l
  induction l with
  | nil => intro r h; exact absurd h (by simp [dropToClose])
  | cons c s ih =>
    intro r h
    rw [dropToClose] at h
    split at h
    · have := congrArg (Option.map List.length) h
      simp only [Option.map_some] at this
      have h2 : r.length = (c :: s).length - 3 := by
        injection this with h3
        rw [← h3, List.length_drop]
      omega
    · have := ih r h
      simp only [List.length_cons]
      omega

/-- Fuel-driven core of `HTML_COMMENT.sub("", s)` (`<!--.*?-->`, DOTALL). -/
def stripCommentsF : Nat → Str → Str
  | _, [] => []
  | 0, s => s
  | f + 1, c :: s =>
    if commentOpen.isPrefixOf (c :: s) then
      match dropToClose ((c :: s).drop 4) with
      | some r => stripCommentsF f r
      | none => c :: s
    else c :: stripCommentsF f s

/-- `HTML_COMMENT.sub("", s)`: remove non-greedy HTML comments. -/
def stripComments (s : Str) : Str := stripCommentsF s.length s

theorem stripCommentsF_of_no_lt : ∀ (f : Nat) (s : Str), '<' ∉ s → stripCommentsF f s = s := by
  intro f
  induction f with
  | zero => intro s _; cases s <;> rfl
  | succ f ih =>
    intro s hs
    cases s with
    | nil => rfl
    | cons c s =>
      rw [stripCommentsF, if_neg]
      · rw [ih s (fun h => hs (List.mem_cons_of_mem _ h))]
      · intro h
        have := (List.isPrefixOf_iff_prefix.mp h).subset (show '<' ∈ commentOpen by decide)
        exact hs this

theorem stripComments_of_no_lt {s : Str} (hs : '<' ∉ s) : stripComments s = s :=
  stripCommentsF_of_no_lt s.length s hs

theorem dropWhile_eq_self_of {p : Char → Bool} :
    ∀ l : Str, (∀ c ∈ l, p c = false) → l.dropWhile p = l := by
  intro l
  induction l with
  | nil => intro _; rfl
  | cons c t _ =>
    intro hs
    rw [List.dropWhile_cons, if_neg]
    rw [hs c (List.mem_cons_self _ _)]
    simp

theorem pyStrip_of_no_space {s : Str} (hs : ∀ c ∈ s, isSpace c = false) : pyStrip s = s := by
  unfold pyStrip
  rw [dropWhile_eq_self_of s hs,
    dropWhile_eq_self_of s.reverse (fun c hc => hs c (List.mem_reverse.mp hc)),
    List.reverse_reverse]

/-! ### The replacement map and template parameters (`replacer.py`) -/

/-- `bsicons_map`, keyed by icon name (BSicon equality and hash are by name). -/
abbrev IconMap := List (Str × Str)

/-- `bsicons_map.get(current_icon, None)`. -/
def iconLookup (m : IconMap) (n : Str) : Option Str :=
  (m.find? (fun kv => kv.1 == n)).map (fun kv => kv.2)

/-- A template parameter of the parsed wikitext tree (mwparserfromhell
`Parameter`): name, raw value, and whether the key is written out. -/
structure Param where
  name : Str
  value : Str
  showkey : Bool
deriving DecidableEq

/-- Events `Replacement(current_icon, new_icon)` recorded while rewriting,
as (old name, new name) pairs in emission order (`replacements` is a set in
the source; duplicates collapse there). -/
abbrev Events := List (Str × Str)

/-- Process every parameter of a template in order, collecting events:
the loop bodies of `_replace_*_template_files`. -/
def replaceParamsWith (f : Param → Param × Events) : List Param → List Param × Events
  | [] => ([], [])
  | p :: ps =>
    let r := f p
    let rest := replaceParamsWith f ps
    (r.1 :: rest.1, r.2 ++ rest.2)

/-- One parameter of `_replace_bs_template_files` for the group with prefix
`pfx`.  `validName n` models whether `BSiconPage(site, name=n)` succeeds with
a name-preserving title normalization (the pywikibot collaborator). -/
def replaceBSParam (validName : Str → Bool) (map : IconMap) (pfx : Str) (param : Param) :
    Param × Events :=
  let p := if pyStrip param.name = ("1").data then pyStrip pfx else []
  let v := pyStrip (stripComments param.value)
  let cur := p ++ v
  if validName cur then
    match iconLookup map cur with
    | some newName =>
        if newName.take p.length = p then
          ({ param with value := pyReplace param.value v (newName.drop p.length) },
            [(cur, newName)])
        else (param, [])
    | none => (param, [])
  else (param, [])

/-- `_replace_bs_template_files`: iterate the prefix groups the template
belongs to, processing every parameter for each. -/
def replaceBSTemplateParams (validName : Str → Bool) (map : IconMap)
    (memberPrefixes : List Str) (params : List Param) : List Param × Events :=
  memberPrefixes.foldl
    (fun acc pfx =>
      let r := replaceParamsWith (replaceBSParam validName map pfx) acc.1
      (r.1, acc.2 ++ r.2))
    (params, [])

/-- One parameter of `_replace_rt_template_files` (railway-track templates,
written for `cs:Template:Železniční trať`). -/
def replaceRTParam (validName : Str → Bool) (map : IconMap) (param : Param) :
    Param × Events :=
  let v := pyStrip (stripComments param.value)
  let isTyp := pyStrip param.name = ("typ").data
  let cur :=
    if isTyp then (if v.take 2 = ("ex").data then ("exl").data ++ v.drop 2 else 'l' :: v)
    else v
  if validName cur then
    match iconLookup map cur with
    | some newName =>
        if isTyp then
          if newName.take 3 = ("exl").data then
            ({ param with value := pyReplace param.value v (("ex").data ++ newName.drop 3) },
              [(cur, newName)])
          else if newName.take 1 = ("l").data then
            ({ param with value := pyReplace param.value v (newName.drop 1) },
              [(cur, newName)])
          else (param, [])
        else
          ({ param with value := pyReplace param.value v newName }, [(cur, newName)])
    | none => (param, [])
  else (param, [])

def replaceRTTemplateParams (validName : Str → Bool) (map : IconMap)
    (params : List Param) : List Param × Events :=
  replaceParamsWith (replaceRTParam validName map) params

/-! ### The `ROUTEMAP_BSICON` pattern

```
(?=((?:\n|! !|!~|\\)[ \t]*)((?:[^\\~\n]|~(?!~))+?)([ \t]*(?:\n|!~|~~|!@|__|!_|\\)))
```

`re.findall` semantics implemented directly: at every position the lookahead
is attempted with the engine's backtracking order (alternatives in written
order, `[ \t]*` greedy, the body `+?` lazy), and the three captured groups are
collected. -/

def rmDelims1 : List Str := [['\n'], ['!', ' ', '!'], ['!', '~'], ['\\']]

def rmDelims2 : List Str :=
  [['\n'], ['!', '~'], ['~', '~'], ['!', '@'], ['_', '_'], ['!', '_'], ['\\']]

def isBlankT (c : Char) : Bool := c == ' ' || c == '\t'

/-- Candidate splits of a leading `[ \t]*`, in greedy order (longest first),
paired with the rest of the string. -/
def wsSplits (s : Str) : List (Str × Str) :=
  let w := s.takeWhile isBlankT
  let r := s.dropWhile isBlankT
  (List.range (w.length + 1)).reverse.map (fun i => (w.take i, w.drop i ++ r))

/-- Match group 3 (`[ \t]*` then a closing delimiter) at the head of `s`,
returning the captured text. -/
def rmMatchG3 (s : Str) : Option Str :=
  (wsSplits s).findSome? (fun ws =>
    rmDelims2.findSome? (fun d => if d.isPrefixOf ws.2 then some (ws.1 ++ d) else none))

/-- One body element: any character but `\`, `~`, newline, or a `~` not
followed by another `~`. -/
def rmBodyStep (c : Char) (rest : Str) : Bool :=
  if c == '\\' || c == '\n' then false
  else if c == '~' then
    match rest with
    | '~' :: _ => false
    | _ => true
  else true

/-- Lazy search for the body (group 2): grow the body one element at a time,
attempting group 3 after each element. -/
def rmMatchBody (acc : Str) : Str → Option (Str × Str)
  | [] => none
  | c :: rest =>
    if rmBodyStep c rest then
      match rmMatchG3 rest with
      | some g3 => some (acc ++ [c], g3)
      | none => rmMatchBody (acc ++ [c]) rest
    else none

/-- Attempt the lookahead at the head of `s`. -/
def rmMatchAt (s : Str) : Option (Str × Str × Str) :=
  rmDelims1.findSome? (fun d =>
    if d.isPrefixOf s then
      (wsSplits (s.drop d.length)).findSome? (fun ws =>
        (rmMatchBody [] ws.2).map (fun bg => (d ++ ws.1, bg.1, bg.2)))
    else none)

/-- `ROUTEMAP_BSICON.findall(s)`. -/
def routemapFindall (s : Str) : List (Str × Str × Str) :=
  (List.range (s.length + 1)).filterMap (fun i => rmMatchAt (s.drop i))

/-- `re.search(r"^(?:map\d*|\d+)$", str(param.name).strip())`. -/
def routemapParamName (n : Str) : Bool :=
  let s := pyStrip n
  (("map").data.isPrefixOf s && (s.drop 3).all Char.isDigit) ||
    (!s.isEmpty && s.all Char.isDigit)

/-- The body of the `for match in ROUTEMAP_BSICON.findall(param_value)` loop
of `_replace_routemap_files`. -/
def rmStep (validName : Str → Bool) (map : IconMap) (acc : Str × Events)
    (m : Str × Str × Str) : Str × Events :=
  let currentName := pyStrip (stripComments m.2.1)
  if validName currentName then
    match iconLookup map currentName with
    | some newName =>
        (pyReplace acc.1 (m.1 ++ m.2.1 ++ m.2.2)
           (m.1 ++ pyReplace m.2.1 currentName newName ++ m.2.2),
         acc.2 ++ [(currentName, newName)])
    | none => acc
  else acc

/-- `_replace_routemap_files`, one parameter. -/
def replaceRoutemapParam (validName : Str → Bool) (map : IconMap) (param : Param) :
    Param × Events :=
  if routemapParamName param.name then
    let step := (routemapFindall param.value).foldl (rmStep validName map) (param.value, [])
    ({ param with value := step.1 }, step.2)
  else (param, [])

def replaceRoutemapTemplateParams (validName : Str → Bool) (map : IconMap)
    (params : List Param) : List Param × Events :=
  replaceParamsWith (replaceRoutemapParam validName map) params

/-! ### Claim C2: same-prefix invariant for BS templates -/

/-- C2: for a BS template with membership prefix `p` and a parameter named `1`
with clean value `rest`, when the map sends `p ++ rest` to `newName`, the
parameter is rewritten iff `newName` begins with `p`; then its value becomes
`newName` minus the first `len(p)` characters and a replacement event is
recorded; otherwise the parameter is unchanged and no event is recorded. -/
theorem claim_C2_bs_same_pfx (validName : Str → Bool) (map : IconMap)
    (pfx rest newName : Str) (sk : Bool)
    (hpfx : pyStrip pfx = pfx)
    (hrest1 : stripComments rest = rest) (hrest2 : pyStrip rest = rest)
    (hvalid : validName (pfx ++ rest) = true)
    (hmap : iconLookup map (pfx ++ rest) = some newName) :
    (newName.take pfx.length = pfx →
      replaceBSParam validName map pfx ⟨("1").data, rest, sk⟩ =
        (⟨("1").data, newName.drop pfx.length, sk⟩, [(pfx ++ rest, newName)])) ∧
    (newName.take pfx.length ≠ pfx →
      replaceBSParam validName map pfx ⟨("1").data, rest, sk⟩ =
        (⟨("1").data, rest, sk⟩, [])) := by
  have hone : pyStrip (("1").data) = ("1").data := by decide
  constructor
  · intro hcond
    simp [replaceBSParam, hone, hpfx, hrest1, hrest2, hvalid, hmap, hcond, pyReplace_self]
  · intro hcond
    simp [replaceBSParam, hone, hpfx, hrest1, hrest2, hvalid, hmap, hcond]

theorem claim_C2_witness :
    (let pfx := ('x' : Char) :: []
     let rest := ("Foo").data
     (("yBar").data.take pfx.length ≠ pfx ∧
       replaceBSParam (fun _ => true) [(("xFoo").data, ("yBar").data)] pfx
         ⟨("1").data, rest, false⟩ = (⟨("1").data, rest, false⟩, [])) ∧
     (("xBaz").data.take pfx.length = pfx ∧
       replaceBSParam (fun _ => true) [(("xFoo").data, ("xBaz").data)] pfx
         ⟨("1").data, rest, false⟩ =
         (⟨("1").data, ("Baz").data, false⟩, [(("xFoo").data, ("xBaz").data)]))) := by
  refine ⟨⟨by decide, ?_⟩, ⟨by decide, ?_⟩⟩
  · exact (claim_C2_bs_same_pfx (fun _ => true) [(("xFoo").data, ("yBar").data)]
      (('x' : Char) :: []) (("Foo").data) (("yBar").data) false
      (by decide) (by decide) (by decide) (by decide) (by decide)).2 (by decide)
  · exact (claim_C2_bs_same_pfx (fun _ => true) [(("xFoo").data, ("xBaz").data)]
      (('x' : Char) :: []) (("Foo").data) (("xBaz").data) false
      (by decide) (by decide) (by decide) (by decide) (by decide)).1 (by decide)

/-! ### Claim C3: railway-track `typ` transform round-trip -/

/-- C3: for a railway-track parameter named `typ` with clean value `v`, the
current icon is `exl<rest>` when `v` begins with `ex` and `l<v>` otherwise;
when the map yields `newName`, the written-back value is `ex` + rest of
`newName` when it begins with `exl`, the rest when it begins with `l`, and
otherwise the parameter is unchanged with no event (a notice is logged);
later parameters are processed regardless. -/
theorem claim_C3_rt_typ_transform (validName : Str → Bool) (map : IconMap)
    (v newName : Str) (sk : Bool)
    (hv1 : stripComments v = v) (hv2 : pyStrip v = v)
    (hvalid : validName
      (if v.take 2 = ['e', 'x'] then 'e' :: 'x' :: 'l' :: v.drop 2 else 'l' :: v) = true)
    (hmap : iconLookup map
      (if v.take 2 = ['e', 'x'] then 'e' :: 'x' :: 'l' :: v.drop 2 else 'l' :: v) = some newName) :
    (newName.take 3 = ['e', 'x', 'l'] →
      replaceRTParam validName map ⟨("typ").data, v, sk⟩ =
        (⟨("typ").data, 'e' :: 'x' :: newName.drop 3, sk⟩,
          [(if v.take 2 = ['e', 'x'] then 'e' :: 'x' :: 'l' :: v.drop 2 else 'l' :: v, newName)])) ∧
    (newName.take 3 ≠ ['e', 'x', 'l'] → newName.take 1 = ['l'] →
      replaceRTParam validName map ⟨("typ").data, v, sk⟩ =
        (⟨("typ").data, newName.drop 1, sk⟩,
          [(if v.take 2 = ['e', 'x'] then 'e' :: 'x' :: 'l' :: v.drop 2 else 'l' :: v, newName)])) ∧
    (newName.take 3 ≠ ['e', 'x', 'l'] → newName.take 1 ≠ ['l'] →
      replaceRTParam validName map ⟨("typ").data, v, sk⟩ = (⟨("typ").data, v, sk⟩, [])) ∧
    (∀ ps, replaceRTTemplateParams validName map (⟨("typ").data, v, sk⟩ :: ps) =
      ((replaceRTParam validName map ⟨("typ").data, v, sk⟩).1 ::
          (replaceRTTemplateParams validName map ps).1,
        (replaceRTParam validName map ⟨("typ").data, v, sk⟩).2 ++
          (replaceRTTemplateParams validName map ps).2)) := by
  have htyp : pyStrip (("typ").data) = ("typ").data := by decide
  refine ⟨?_, ?_, ?_, fun ps => rfl⟩
  · intro hcond
    simp [replaceRTParam, htyp, hv1, hv2, hvalid, hmap, hcond, pyReplace_self]
  · intro hc1 hc2
    simp [replaceRTParam, htyp, hv1, hv2, hvalid, hmap, hc1, hc2, pyReplace_self]
  · intro hc1 hc2
    simp [replaceRTParam, htyp, hv1, hv2, hvalid, hmap, hc1, hc2]

theorem claim_C3_witness :
    replaceRTParam (fun _ => true) [(("exlABC").data, ("exlXYZ").data)]
        ⟨("typ").data, ("exABC").data, false⟩ =
      (⟨("typ").data, ("exXYZ").data, false⟩, [(("exlABC").data, ("exlXYZ").data)]) ∧
    replaceRTParam (fun _ => true) [(("exlABC").data, ("lQRS").data)]
        ⟨("typ").data, ("exABC").data, false⟩ =
      (⟨("typ").data, ("QRS").data, false⟩, [(("exlABC").data, ("lQRS").data)]) ∧
    replaceRTParam (fun _ => true) [(("exlABC").data, ("mABC").data)]
        ⟨("typ").data, ("exABC").data, false⟩ =
      (⟨("typ").data, ("exABC").data, false⟩, []) := by
  refine ⟨?_, ?_, ?_⟩
  · have h := (claim_C3_rt_typ_transform (fun _ => true)
      [(("exlABC").data, ("exlXYZ").data)] (("exABC").data) (("exlXYZ").data) false
      (by decide) (by decide) (by decide) (by decide)).1 (by decide)
    simpa using h
  · have h := ((claim_C3_rt_typ_transform (fun _ => true)
      [(("exlABC").data, ("lQRS").data)] (("exABC").data) (("lQRS").data) false
      (by decide) (by decide) (by decide) (by decide)).2).1 (by decide) (by decide)
    simpa using h
  · have h := (((claim_C3_rt_typ_transform (fun _ => true)
      [(("exlABC").data, ("mABC").data)] (("exABC").data) (("mABC").data) false
      (by decide) (by decide) (by decide) (by decide)).2).2).1 (by decide) (by decide)
    simpa using h

/-! ### Claim C4: route-map extraction -/

/-- C4: for a route-map parameter whose name matches `map\d*` or is purely
numeric, value `"\nfoo!~"` with map `foo → bar` becomes `"\nbar!~"`: only the
icon-name substring within the captured span is replaced, the delimiters
stay, and the replacement event is recorded. -/
theorem claim_C4_routemap_extraction :
    routemapParamName (("map").data) = true ∧
    routemapParamName (("7").data) = true ∧
    routemapFindall (("\nfoo!~").data) = [(['\n'], ("foo").data, ("!~").data)] ∧
    replaceRoutemapParam (fun _ => true) [(("foo").data, ("bar").data)]
        ⟨("map").data, ("\nfoo!~").data, true⟩ =
      (⟨("map").data, ("\nbar!~").data, true⟩, [(("foo").data, ("bar").data)]) ∧
    replaceRoutemapParam (fun _ => true) [(("foo").data, ("bar").data)]
        ⟨("7").data, ("\nfoo!~").data, true⟩ =
      (⟨("7").data, ("\nbar!~").data, true⟩, [(("foo").data, ("bar").data)]) := by
  decide

/-! ### Claim C7: direct file links (`replace_file_links`) -/

/-- Space/underscore normalization of titles (pywikibot; further
normalization is assumed name-preserving). -/
def underscored (t : Str) : Str := t.map (fun c => if c = ' ' then '_' else c)

/-- `BSiconPage(site, filename)` followed by `current_icon.title()`: succeeds
iff the underscored title carries the BSicon prefix and suffix; yields the
icon name. -/
def parseIconTitle (t : Str) : Option Str :=
  let u := underscored t
  if bsPre.isPrefixOf u && bsSuf.isSuffixOf u then
    some ((u.drop bsPre.length).take (u.length - bsPre.length - bsSuf.length))
  else none

/-- `new_icon.title(with_ns=False)`: underscores are rendered as spaces. -/
def displayTitle (n : Str) : Str :=
  (bsPre ++ n ++ bsSuf).map (fun c => if c = '_' then ' ' else c)

/-- `replace_file_links`: for each filename matched by the site's file-link
regex (the `fileMatches` collaborator applied to the text with disabled parts
removed), parse it as a BSicon; on a replacement-map hit, replace the
filename substring in the text (`text.replace`, i.e. globally) with the new
icon's title and record the event. -/
def replace_file_links (map : IconMap) (fileMatches : List Str) (text : Str) :
    Str × Events :=
  fileMatches.foldl
    (fun (acc : Str × Events) fn =>
      match parseIconTitle fn with
      | none => acc
      | some nm =>
          match iconLookup map nm with
          | some newName =>
              (pyReplace acc.1 fn (displayTitle newName), acc.2 ++ [(nm, newName)])
          | none => acc)
    (text, [])

/-- C7 (counterexample): `replace_file_links` performs a global
`text.replace` of the matched filename, so a bare occurrence of the same
filename outside the matched link is rewritten too — bytes outside the
matched span change. -/
theorem claim_C7_counterexample :
    (replace_file_links [(("xFoo").data, ("yBar").data)] [("BSicon xFoo.svg").data]
        (("[[File:BSicon xFoo.svg|x]] see BSicon xFoo.svg").data)).1 =
      ("[[File:BSicon yBar.svg|x]] see BSicon yBar.svg").data ∧
    ("[[File:BSicon yBar.svg|x]] see BSicon yBar.svg").data ≠
      ("[[File:BSicon yBar.svg|x]] see BSicon xFoo.svg").data := by
  constructor
  · decide
  · decide

/-- C7 (amended): `replace_file_links` replaces every occurrence of each
matched filename in the whole text; when the matched filename occurs in the
text only at its matched span, every byte outside that span is preserved. -/
theorem claim_C7_file_link_frame (map : IconMap) (a fn b nm newName : Str)
    (hfn : fn ≠ [])
    (hparse : parseIconTitle fn = some nm)
    (hmap : iconLookup map nm = some newName)
    (hnota : ∀ d, d < a.length → ¬ fn <+: (a.drop d ++ (fn ++ b)))
    (hnotb : ¬ fn <:+: b) :
    replace_file_links map [fn] (a ++ fn ++ b) =
      (a ++ displayTitle newName ++ b, [(nm, newName)]) := by
  unfold replace_file_links
  simp only [List.foldl_cons, List.foldl_nil, hparse, hmap]
  rw [List.append_assoc, pyReplace_skip _ _ _ hfn hnota,
    pyReplace_append_pat _ _ hfn, pyReplace_of_not_sub _ _ _ hfn hnotb,
    List.append_assoc, List.nil_append]

theorem claim_C7_frame_witness :
    replace_file_links [(("xFoo").data, ("yBar").data)] [("BSicon xFoo.svg").data]
        ((("[[File:").data ++ ("BSicon xFoo.svg").data ++ ("|x]]").data)) =
      ((("[[File:").data ++ displayTitle (("yBar").data) ++ ("|x]]").data),
        [(("xFoo").data, ("yBar").data)]) :=
  claim_C7_file_link_frame [(("xFoo").data, ("yBar").data)]
    (("[[File:").data) (("BSicon xFoo.svg").data) (("|x]]").data)
    (("xFoo").data) (("yBar").data)
    (by decide) (by decide) (by decide) (by decide) (by decide)

/-! ### Claim C8: the per-site caches (`site_disabled`, `site_config`) -/

abbrev Site := Nat

/-- A resolved site configuration (abstract); `none` models a configuration
that failed validation (`self._config[site] = None`). -/
structure SiteCfg where
  cfgId : Nat
deriving DecidableEq

/-- The external collaborators of the cache layer: the kill-switch page
content (stripped; `[]` for empty or nonexistent) and the config resolution
(deepcopy of the global config, local-config update, file regex, validation). -/
structure SiteOracle where
  killContent : Site → Str
  resolveCfg : Site → Option SiteCfg

/-- The bot's cache state: `self._disabled` and `self._config`. -/
structure BotState where
  disabled : List Site
  config : List (Site × Option SiteCfg)

/-- `site_disabled`: flag, new state, and how many kill-switch page fetches
were performed (`page.get(force=True)`). -/
def site_disabled (o : SiteOracle) (st : BotState) (s : Site) :
    Bool × BotState × Nat :=
  if s ∈ st.disabled then (true, st, 0)
  else if o.killContent s ≠ [] then (true, { st with disabled := st.disabled ++ [s] }, 1)
  else (false, st, 1)

/-- `site_config`: resolved config, new state, and how many config
resolutions were performed. -/
def site_config (o : SiteOracle) (st : BotState) (s : Site) :
    Option SiteCfg × BotState × Nat :=
  match st.config.find? (fun kv => kv.1 == s) with
  | some kv => (kv.2, st, 0)
  | none =>
      let v := o.resolveCfg s
      (v, { st with config := st.config ++ [(s, v)] }, 1)

/-- C8 (counterexample): on a site that is not disabled, the second page
visit performs a second kill-switch page fetch — only positive kill-switch
results are cached, so the claim's "no second kill-switch fetch" is false. -/
theorem claim_C8_counterexample :
    (site_disabled ⟨fun _ => [], fun _ => some ⟨0⟩⟩
        (site_disabled ⟨fun _ => [], fun _ => some ⟨0⟩⟩ ⟨[], []⟩ 0).2.1 0).2.2 = 1 ∧
    (1 : Nat) ≠ 0 := by
  constructor
  · decide
  · decide

/-- C8 (amended): the configuration is resolved at most once per site (a
second lookup answers from the cache with the same result); the kill-switch
fetch is skipped on later visits only when the site was found disabled;
for an enabled site every visit fetches the kill-switch page again
(deliberately: the source fetches it with `force=True`). -/
theorem claim_C8_cache_sites (o : SiteOracle) (st : BotState) (s : Site) :
    (site_config o (site_config o st s).2.1 s).2.2 = 0 ∧
    (site_config o (site_config o st s).2.1 s).1 = (site_config o st s).1 ∧
    ((site_disabled o st s).1 = true →
      (site_disabled o (site_disabled o st s).2.1 s).2.2 = 0) ∧
    ((site_disabled o st s).1 = false →
      (site_disabled o (site_disabled o st s).2.1 s).2.2 = 1) := by
  refine ⟨?_, ?_, ?_, ?_⟩
  · unfold site_config
    cases hfind : st.config.find? (fun kv => kv.1 == s) with
    | none =>
      simp only [hfind]
      rw [List.find?_append, hfind]
      simp
    | some kv => simp [hfind]
  · unfold site_config
    cases hfind : st.config.find? (fun kv => kv.1 == s) with
    | none =>
      simp only [hfind]
      rw [List.find?_append, hfind]
      simp
    | some kv => simp [hfind]
  · intro h1
    unfold site_disabled at h1 ⊢
    by_cases hmem : s ∈ st.disabled
    · simp [hmem]
    · rw [if_neg hmem] at h1 ⊢
      by_cases hkill : o.killContent s ≠ []
      · rw [if_pos hkill] at h1 ⊢
        simp
      · rw [if_neg hkill] at h1
        exact absurd h1 (by simp)
  · intro h1
    unfold site_disabled at h1 ⊢
    by_cases hmem : s ∈ st.disabled
    · rw [if_pos hmem] at h1
      exact absurd h1 (by simp)
    · rw [if_neg hmem] at h1 ⊢
      by_cases hkill : o.killContent s ≠ []
      · rw [if_pos hkill] at h1
        exact absurd h1 (by simp)
      · rw [if_neg hkill] at h1 ⊢
        rw [if_neg hmem, if_neg hkill]

/-! ### The page-processing driver (`treat_page`) -/

/-- A node of the parsed wikitext tree (mwparserfromhell), at the granularity
the rewriters dispatch on: plain markup, a template with parameters, or a
`<gallery>` tag. -/
inductive WNode where
  | txt (s : Str)
  | tpl (tname : Str) (params : List Param)
  | gallery (contents : Str)
deriving DecidableEq

def renderParam (p : Param) : Str :=
  '|' :: ((if p.showkey then p.name ++ ('=' :: []) else []) ++ p.value)

def renderNode : WNode → Str
  | .txt s => s
  | .tpl tname params =>
      ("\x7b\x7b").data ++ tname ++ params.flatMap renderParam ++ ("\x7d\x7d").data
  | .gallery contents => ("<gallery>").data ++ contents ++ ("</gallery>").data

/-- `str(wikicode)`. -/
def renderDoc (doc : List WNode) : Str := doc.flatMap renderNode

/-- The template classification of the site configuration, plus the summary
prefix (`validate_local_config` requires at least one template collection to
be nonempty). -/
structure DriverCfg where
  routemapTemplates : List Str
  rtTemplates : List Str
  bsTemplates : List (Str × List Str)
  summaryPfx : Str

/-- `replace_template_files`: resolve each template via the pywikibot title
collaborator and dispatch on the configured template sets; unresolvable
templates are skipped. -/
def replace_template_files (validName : Str → Bool) (resolveTemplate : Str → Option Str)
    (cfg : DriverCfg) (map : IconMap) : List WNode → List WNode × Events
  | [] => ([], [])
  | n :: ns =>
    let r :=
      match n with
      | WNode.tpl tname params =>
          match resolveTemplate tname with
          | none => (WNode.tpl tname params, ([] : Events))
          | some t =>
              if t ∈ cfg.routemapTemplates then
                let r := replaceRoutemapTemplateParams validName map params
                (WNode.tpl tname r.1, r.2)
              else if t ∈ cfg.rtTemplates then
                let r := replaceRTTemplateParams validName map params
                (WNode.tpl tname r.1, r.2)
              else
                let pfxs := (cfg.bsTemplates.filter
                  (fun (g : Str × List Str) => decide (t ∈ g.2))).map Prod.fst
                let r := replaceBSTemplateParams validName map pfxs params
                (WNode.tpl tname r.1, r.2)
      | other => (other, ([] : Events))
    let rest := replace_template_files validName resolveTemplate cfg map ns
    (r.1 :: rest.1, r.2 ++ rest.2)

/-- Python `str.splitlines()` (newline variant). -/
def splitLines (s : Str) : List Str :=
  let ps := s.splitOn '\n'
  match ps.getLast? with
  | some [] => ps.dropLast
  | _ => ps

/-- Python `str.partition(c)`. -/
def pyPartition (s : Str) (c : Char) : Str × Str × Str :=
  let pre := s.takeWhile (fun x => x != c)
  match s.dropWhile (fun x => x != c) with
  | [] => (s, [], [])
  | _ :: tail => (pre, [c], tail)

/-- Gallery line titles may carry the File namespace. -/
def stripFileNS (t : Str) : Str :=
  let u := underscored t
  if ("File:").data.isPrefixOf u then u.drop 5 else u

def parseGalleryName (t : Str) : Option Str := parseIconTitle (stripFileNS t)

/-- `new_icon.title()` with namespace. -/
def displayTitleNS (n : Str) : Str := ("File:").data ++ displayTitle n

/-- One `<gallery>` tag of `replace_gallery_files`: rewrite hit lines; the
tag contents are re-joined (with a trailing newline) whenever the page has
recorded any replacement so far. -/
def replace_gallery_node (removeDisabled : Str → Str) (map : IconMap)
    (contents : Str) (evsSoFar : Events) : Str × Events :=
  let step := (splitLines contents).foldl
    (fun (acc : List Str × Events) line =>
      let parts := pyPartition (removeDisabled line) '|'
      if parts.1 = [] then (acc.1 ++ [line], acc.2)
      else
        match parseGalleryName parts.1 with
        | none => (acc.1 ++ [line], acc.2)
        | some nm =>
            match iconLookup map nm with
            | some newName =>
                (acc.1 ++ [displayTitleNS newName ++ parts.2.1 ++ parts.2.2],
                  acc.2 ++ [(nm, newName)])
            | none => (acc.1 ++ [line], acc.2))
    ([], [])
  if evsSoFar ++ step.2 ≠ [] then
    (List.intercalate ['\n'] step.1 ++ ['\n'], evsSoFar ++ step.2)
  else (contents, evsSoFar)

/-- `replace_gallery_files`, threading the page-scoped replacement set. -/
def replace_gallery_files (removeDisabled : Str → Str) (map : IconMap) :
    List WNode → Events → List WNode × Events
  | [], evs => ([], evs)
  | WNode.gallery contents :: ns, evs =>
      let r := replace_gallery_node removeDisabled map contents evs
      let rest := replace_gallery_files removeDisabled map ns r.2
      (WNode.gallery r.1 :: rest.1, rest.2)
  | n :: ns, evs =>
      let rest := replace_gallery_files removeDisabled map ns evs
      (n :: rest.1, rest.2)

/-- The external collaborators of `treat_page`: the HTML-tag regex scan, the
site file-link regex scan (on text with disabled parts removed), pywikibot's
`removeDisabledParts`, the mwparserfromhell parser, pywikibot template title
resolution, and icon-name validation. -/
structure Collaborators where
  tagFindall : Str → List Str
  fileMatches : Str → List Str
  removeDisabled : Str → Str
  parse : Str → List WNode
  resolveTemplate : Str → Option Str
  validName : Str → Bool

/-- `treat_page` on a page with valid config and the site enabled: mask HTML
tags, rewrite file links, mask `{{!}}`, parse, rewrite galleries then
templates, serialize, unmask, and hand the result to `put_current`.  The save
collaborator (pywikibot `put_current` → `userPut`) performs an API save iff
the new text differs from the current page text.  Returns the final text,
the recorded events, and whether a save happened; `none` when the unmask
loop is still running after `fuel` passes. -/
def treat_page (col : Collaborators) (cfg : DriverCfg) (map : IconMap)
    (fuel : Nat) (pageText : Str) : Option (Str × Events × Bool) :=
  let m := mask_text pageText col.tagFindall []
  let r1 := replace_file_links map (col.fileMatches m.1) m.1
  let t2 := mask_pipe_mw r1.1
  let doc := col.parse t2
  let rg := replace_gallery_files col.removeDisabled map doc r1.2
  let rt := replace_template_files col.validName col.resolveTemplate cfg map rg.1
  match unmask_text fuel (renderDoc rt.1) m.2 with
  | none => none
  | some final => some (final, rg.2 ++ rt.2, decide (final ≠ pageText))

theorem claim_C8_cache_witness :
    (site_config ⟨fun _ => [], fun _ => some ⟨5⟩⟩
        (site_config ⟨fun _ => [], fun _ => some ⟨5⟩⟩ ⟨[], []⟩ 3).2.1 3).2.2 = 0 ∧
    (site_config ⟨fun _ => [], fun _ => some ⟨5⟩⟩
        (site_config ⟨fun _ => [], fun _ => some ⟨5⟩⟩ ⟨[], []⟩ 3).2.1 3).1 =
      (site_config ⟨fun _ => [], fun _ => some ⟨5⟩⟩ ⟨[], []⟩ 3).1 ∧
    ((site_disabled ⟨fun _ => [], fun _ => some ⟨5⟩⟩ ⟨[], []⟩ 3).1 = true →
      (site_disabled ⟨fun _ => [], fun _ => some ⟨5⟩⟩
          (site_disabled ⟨fun _ => [], fun _ => some ⟨5⟩⟩ ⟨[], []⟩ 3).2.1 3).2.2 = 0) ∧
    ((site_disabled ⟨fun _ => [], fun _ => some ⟨5⟩⟩ ⟨[], []⟩ 3).1 = false →
      (site_disabled ⟨fun _ => [], fun _ => some ⟨5⟩⟩
          (site_disabled ⟨fun _ => [], fun _ => some ⟨5⟩⟩ ⟨[], []⟩ 3).2.1 3).2.2 = 1) :=
  claim_C8_cache_sites ⟨fun _ => [], fun _ => some ⟨5⟩⟩ ⟨[], []⟩ 3

/-! ### Stages that record no events leave the page unchanged -/

theorem mask_text_nil_matches (text : Str) (findall : Str → List Str) (mask : MaskStore)
    (h : findall text = []) : mask_text text findall mask = (text, mask) := by
  unfold mask_text
  rw [h]
  rfl

theorem replace_file_links_no_hit (map : IconMap) :
    ∀ (fns : List Str) (text : Str),
      (∀ fn ∈ fns, ∀ nm, parseIconTitle fn = some nm → iconLookup map nm = none) →
      replace_file_links map fns text = (text, []) := by
  intro fns
  induction fns with
  | nil => intro text _; rfl
  | cons fn fns ih =>
    intro text h
    have h' : ∀ f ∈ fns, ∀ nm, parseIconTitle f = some nm → iconLookup map nm = none :=
      fun f hf => h f (List.mem_cons_of_mem _ hf)
    unfold replace_file_links
    rw [List.foldl_cons]
    cases hp : parseIconTitle fn with
    | none =>
        simp only [hp]
        exact ih text h'
    | some nm =>
        have hn := h fn (List.mem_cons_self _ _) nm hp
        simp only [hp, hn]
        exact ih text h'

theorem replace_gallery_node_evs (removeDisabled : Str → Str) (map : IconMap)
    (contents : Str) (evs : Events) :
    ∃ t, (replace_gallery_node removeDisabled map contents evs).2 = evs ++ t := by
  have key : ∀ (C : Prop) [Decidable C] (x y : Str) (u : Events),
      ∃ t, (if C then (x, evs ++ u) else (y, evs)).2 = evs ++ t := by
    intro C inst x y u
    split
    · exact ⟨u, rfl⟩
    · exact ⟨[], (List.append_nil evs).symm⟩
  exact @key _ _ _ _ _

theorem replace_gallery_node_noop (removeDisabled : Str → Str) (map : IconMap)
    (contents : Str) (h : (replace_gallery_node removeDisabled map contents []).2 = []) :
    replace_gallery_node removeDisabled map contents [] = (contents, []) := by
  refine Prod.ext ?_ h
  simp only [replace_gallery_node] at h ⊢
  split at h
  · next hc => exact absurd h hc
  · next hc => rw [if_neg hc]

theorem replace_gallery_files_evs (removeDisabled : Str → Str) (map : IconMap) :
    ∀ (doc : List WNode) (evs : Events),
      ∃ t, (replace_gallery_files removeDisabled map doc evs).2 = evs ++ t := by
  intro doc
  induction doc with
  | nil => intro evs; exact ⟨[], (List.append_nil evs).symm⟩
  | cons n ns ih =>
    intro evs
    cases n with
    | txt s => exact ih evs
    | tpl tname params => exact ih evs
    | gallery contents =>
        obtain ⟨t1, ht1⟩ := replace_gallery_node_evs removeDisabled map contents evs
        obtain ⟨t2, ht2⟩ := ih (replace_gallery_node removeDisabled map contents evs).2
        refine ⟨t1 ++ t2, ?_⟩
        show (replace_gallery_files removeDisabled map ns
            (replace_gallery_node removeDisabled map contents evs).2).2 = evs ++ (t1 ++ t2)
        rw [ht2, ht1, List.append_assoc]

theorem replace_gallery_files_noop (removeDisabled : Str → Str) (map : IconMap) :
    ∀ doc : List WNode,
      (replace_gallery_files removeDisabled map doc []).2 = [] →
      replace_gallery_files removeDisabled map doc [] = (doc, []) := by
  intro doc
  induction doc with
  | nil => intro _; rfl
  | cons n ns ih =>
    intro h
    cases n with
    | txt s =>
        simp only [replace_gallery_files] at h ⊢
        rw [ih h]
    | tpl tname params =>
        simp only [replace_gallery_files] at h ⊢
        rw [ih h]
    | gallery contents =>
        simp only [replace_gallery_files] at h ⊢
        obtain ⟨t2, ht2⟩ := replace_gallery_files_evs removeDisabled map ns
          (replace_gallery_node removeDisabled map contents []).2
        rw [ht2] at h
        obtain ⟨h1, h2⟩ := List.append_eq_nil.mp h
        have hn := replace_gallery_node_noop removeDisabled map contents h1
        simp only [hn] at ht2 ⊢
        rw [ih (by rw [ht2, h2]; rfl)]

theorem replaceBSParam_skip_or_hit (vn : Str → Bool) (map : IconMap) (pfx : Str)
    (p : Param) :
    (replaceBSParam vn map pfx p).1 = p ∨ (replaceBSParam vn map pfx p).2 ≠ [] := by
  simp only [replaceBSParam]
  repeat' split
  all_goals first
    | (left; rfl)
    | (right; exact List.cons_ne_nil _ _)

theorem replaceBSParam_no_events (vn : Str → Bool) (map : IconMap) (pfx : Str)
    (p : Param) (h : (replaceBSParam vn map pfx p).2 = []) :
    (replaceBSParam vn map pfx p).1 = p :=
  (replaceBSParam_skip_or_hit vn map pfx p).resolve_right (fun hn => hn h)

theorem replaceRTParam_skip_or_hit (vn : Str → Bool) (map : IconMap) (p : Param) :
    (replaceRTParam vn map p).1 = p ∨ (replaceRTParam vn map p).2 ≠ [] := by
  simp only [replaceRTParam]
  repeat' split
  all_goals first
    | (left; rfl)
    | (right; exact List.cons_ne_nil _ _)

theorem replaceRTParam_no_events (vn : Str → Bool) (map : IconMap)
    (p : Param) (h : (replaceRTParam vn map p).2 = []) :
    (replaceRTParam vn map p).1 = p :=
  (replaceRTParam_skip_or_hit vn map p).resolve_right (fun hn => hn h)

theorem rmStep_shape (vn : Str → Bool) (map : IconMap) (acc : Str × Events)
    (m : Str × Str × Str) :
    rmStep vn map acc m = acc ∨
      ∃ e val, rmStep vn map acc m = (val, acc.2 ++ [e]) := by
  simp only [rmStep]
  repeat' split
  all_goals first
    | exact Or.inl rfl
    | exact Or.inr ⟨_, _, rfl⟩

/-- A fold whose step either leaves the accumulator alone or appends one
event only grows the event component; if it grew by nothing, the value
component is untouched. -/
theorem foldl_evs_shape {α : Type} (g : Str × Events → α → Str × Events)
    (hg : ∀ acc m, g acc m = acc ∨ ∃ e val, g acc m = (val, acc.2 ++ [e])) :
    ∀ (ms : List α) (acc : Str × Events),
      ∃ t, (ms.foldl g acc).2 = acc.2 ++ t ∧ (t = [] → (ms.foldl g acc).1 = acc.1) := by
  intro ms
  induction ms with
  | nil => intro acc; exact ⟨[], (List.append_nil _).symm, fun _ => rfl⟩
  | cons m ms ih =>
    intro acc
    obtain ⟨t, ht, himp⟩ := ih (g acc m)
    rcases hg acc m with heq | ⟨e, val, heq⟩
    · rw [heq] at ht himp
      refine ⟨t, ?_, ?_⟩
      · rw [List.foldl_cons, heq]
        exact ht
      · intro h0
        rw [List.foldl_cons, heq]
        exact himp h0
    · rw [heq] at ht himp
      refine ⟨e :: t, ?_, ?_⟩
      · rw [List.foldl_cons, heq, ht]
        show (acc.2 ++ [e]) ++ t = acc.2 ++ e :: t
        rw [List.append_assoc]
        rfl
      · intro h0
        exact absurd h0 (List.cons_ne_nil _ _)

theorem replaceRoutemapParam_no_events (vn : Str → Bool) (map : IconMap) (p : Param)
    (h : (replaceRoutemapParam vn map p).2 = []) :
    (replaceRoutemapParam vn map p).1 = p := by
  by_cases hname : routemapParamName p.name = true
  · obtain ⟨t, ht, himp⟩ := foldl_evs_shape (rmStep vn map) (rmStep_shape vn map)
      (routemapFindall p.value) (p.value, ([] : Events))
    rw [List.nil_append] at ht
    simp only [replaceRoutemapParam, if_pos hname] at h ⊢
    rw [ht] at h
    have h1 : ((routemapFindall p.value).foldl (rmStep vn map)
        (p.value, ([] : Events))).1 = p.value := himp h
    rw [h1]
  · simp only [replaceRoutemapParam, if_neg hname]

theorem replaceParamsWith_no_events (f : Param → Param × Events)
    (hf : ∀ p, (f p).2 = [] → (f p).1 = p) :
    ∀ ps : List Param, (replaceParamsWith f ps).2 = [] →
      replaceParamsWith f ps = (ps, []) := by
  intro ps
  induction ps with
  | nil => intro _; rfl
  | cons p ps ih =>
    intro h
    simp only [replaceParamsWith] at h ⊢
    obtain ⟨h1, h2⟩ := List.append_eq_nil.mp h
    rw [hf p h1, h1, ih h2]
    rfl

theorem bsFold_shape (vn : Str → Bool) (map : IconMap) :
    ∀ (pfxs : List Str) (acc : List Param × Events),
      ∃ t, (pfxs.foldl (fun acc pfx =>
          let r := replaceParamsWith (replaceBSParam vn map pfx) acc.1
          (r.1, acc.2 ++ r.2)) acc).2 = acc.2 ++ t ∧
        (t = [] → (pfxs.foldl (fun acc pfx =>
          let r := replaceParamsWith (replaceBSParam vn map pfx) acc.1
          (r.1, acc.2 ++ r.2)) acc).1 = acc.1) := by
  intro pfxs
  induction pfxs with
  | nil => intro acc; exact ⟨[], (List.append_nil _).symm, fun _ => rfl⟩
  | cons pfx pfxs ih =>
    intro acc
    obtain ⟨t2, ht2, himp2⟩ := ih ((replaceParamsWith (replaceBSParam vn map pfx) acc.1).1,
      acc.2 ++ (replaceParamsWith (replaceBSParam vn map pfx) acc.1).2)
    refine ⟨(replaceParamsWith (replaceBSParam vn map pfx) acc.1).2 ++ t2, ?_, ?_⟩
    · rw [List.foldl_cons]
      show (pfxs.foldl _ ((replaceParamsWith (replaceBSParam vn map pfx) acc.1).1,
          acc.2 ++ (replaceParamsWith (replaceBSParam vn map pfx) acc.1).2)).2 =
        acc.2 ++ ((replaceParamsWith (replaceBSParam vn map pfx) acc.1).2 ++ t2)
      rw [ht2]
      show (acc.2 ++ (replaceParamsWith (replaceBSParam vn map pfx) acc.1).2) ++ t2 =
        acc.2 ++ ((replaceParamsWith (replaceBSParam vn map pfx) acc.1).2 ++ t2)
      exact List.append_assoc _ _ _
    · intro h0
      obtain ⟨h1, h2⟩ := List.append_eq_nil.mp h0
      rw [List.foldl_cons]
      show (pfxs.foldl _ ((replaceParamsWith (replaceBSParam vn map pfx) acc.1).1,
          acc.2 ++ (replaceParamsWith (replaceBSParam vn map pfx) acc.1).2)).1 = acc.1
      rw [himp2 h2]
      rw [replaceParamsWith_no_events (replaceBSParam vn map pfx)
        (replaceBSParam_no_events vn map pfx) acc.1 h1]

theorem replaceBSTemplateParams_no_events (vn : Str → Bool) (map : IconMap)
    (pfxs : List Str) (ps : List Param)
    (h : (replaceBSTemplateParams vn map pfxs ps).2 = []) :
    (replaceBSTemplateParams vn map pfxs ps).1 = ps := by
  obtain ⟨t, ht, himp⟩ := bsFold_shape vn map pfxs (ps, ([] : Events))
  have ht' : (replaceBSTemplateParams vn map pfxs ps).2 = [] ++ t := ht
  rw [List.nil_append] at ht'
  rw [ht'] at h
  exact himp h

theorem replace_template_files_no_events (vn : Str → Bool)
    (resolveTemplate : Str → Option Str) (cfg : DriverCfg) (map : IconMap) :
    ∀ doc : List WNode,
      (replace_template_files vn resolveTemplate cfg map doc).2 = [] →
      replace_template_files vn resolveTemplate cfg map doc = (doc, []) := by
  intro doc
  induction doc with
  | nil => intro _; rfl
  | cons n ns ih =>
    intro h
    cases n with
    | txt s =>
        simp only [replace_template_files, List.nil_append] at h ⊢
        rw [ih h]
    | gallery c =>
        simp only [replace_template_files, List.nil_append] at h ⊢
        rw [ih h]
    | tpl tname ps =>
        simp only [replace_template_files] at h ⊢
        cases hres : resolveTemplate tname with
        | none =>
            simp only [hres, List.nil_append] at h ⊢
            rw [ih h]
        | some t =>
            simp only [hres] at h ⊢
            by_cases hrm : t ∈ cfg.routemapTemplates
            · simp only [if_pos hrm] at h ⊢
              obtain ⟨h1, h2⟩ := List.append_eq_nil.mp h
              have hthis : replaceRoutemapTemplateParams vn map ps = (ps, []) :=
                replaceParamsWith_no_events (replaceRoutemapParam vn map)
                  (replaceRoutemapParam_no_events vn map) ps h1
              rw [ih h2, hthis]
              rfl
            · simp only [if_neg hrm] at h ⊢
              by_cases hrt : t ∈ cfg.rtTemplates
              · simp only [if_pos hrt] at h ⊢
                obtain ⟨h1, h2⟩ := List.append_eq_nil.mp h
                have hthis : replaceRTTemplateParams vn map ps = (ps, []) :=
                  replaceParamsWith_no_events (replaceRTParam vn map)
                    (replaceRTParam_no_events vn map) ps h1
                rw [ih h2, hthis]
                rfl
              · simp only [if_neg hrt] at h ⊢
                obtain ⟨h1, h2⟩ := List.append_eq_nil.mp h
                have hthis := replaceBSTemplateParams_no_events vn map
                  ((cfg.bsTemplates.filter
                    (fun (g : Str × List Str) => decide (t ∈ g.2))).map Prod.fst) ps h1
                rw [ih h2, hthis, h1]
                rfl

/-! ### Claim C5: no-op save suppression -/

/-- C5 (counterexample): on a page whose text is exactly the pipe
placeholder `|***bot***=***param***|`, with no HTML-tag matches, no
file-link matches, no galleries and no template hits — in particular no
icon of the page is a key of the (nonempty) replacement map — `treat_page`
still hands `put_current` the text `\x7b\x7b!\x7d\x7d`, which differs from the
page text, so a save happens although zero replacement events were
recorded: `unmask_text` rewrites the pipe placeholder unconditionally. -/
theorem claim_C5_counterexample :
    treat_page
        ⟨fun _ => [], fun _ => [], id, fun s => [WNode.txt s], fun _ => none, fun _ => true⟩
        ⟨[], [], [([], [("T").data])], ("bot").data⟩
        [(("xFoo").data, ("yBar").data)] 1 pipeTok =
      some (pipeMagic, [], true) ∧ pipeMagic ≠ pipeTok := by
  constructor
  · decide
  · decide

/-- C5 (amended): processing a page results in no save provided not only
that no stage records a replacement event (no file-link hit, no gallery or
template event) but also that the page text is free of the masking layer's
artifacts — it contains neither `\x7b\x7b!\x7d\x7d` nor the pipe placeholder
nor the mask marker, the HTML-tag scan finds nothing — and the parser
round-trips the text.  `put_current` then receives the page text unchanged
and pywikibot's `userPut` skips the save. -/
theorem claim_C5_no_op_save (col : Collaborators) (cfg : DriverCfg) (map : IconMap)
    (fuel : Nat) (pageText : Str)
    (htags : col.tagFindall pageText = [])
    (hfiles : ∀ fn ∈ col.fileMatches pageText, ∀ nm, parseIconTitle fn = some nm →
      iconLookup map nm = none)
    (hmagic : ¬ pipeMagic <:+: pageText)
    (htok : ¬ pipeTok <:+: pageText)
    (hmark : hasMarker pageText = false)
    (hparse : renderDoc (col.parse pageText) = pageText)
    (hgal : (replace_gallery_files col.removeDisabled map (col.parse pageText) []).2 = [])
    (htpl : (replace_template_files col.validName col.resolveTemplate cfg map
        (col.parse pageText)).2 = []) :
    treat_page col cfg map fuel pageText = some (pageText, [], false) := by
  have hm : mask_text pageText col.tagFindall [] = (pageText, []) :=
    mask_text_nil_matches pageText col.tagFindall [] htags
  have hf : replace_file_links map (col.fileMatches pageText) pageText = (pageText, []) :=
    replace_file_links_no_hit map (col.fileMatches pageText) pageText hfiles
  have hp : mask_pipe_mw pageText = pageText := by
    unfold mask_pipe_mw
    exact pyReplace_of_not_sub pageText pipeMagic pipeTok (by decide) hmagic
  have hg := replace_gallery_files_noop col.removeDisabled map (col.parse pageText) hgal
  have ht := replace_template_files_no_events col.validName col.resolveTemplate cfg map
    (col.parse pageText) htpl
  have hu : unmask_text fuel pageText [] = some pageText := by
    unfold unmask_text
    rw [pyReplace_of_not_sub pageText pipeTok pipeMagic (by decide) htok]
    unfold unmaskLoop
    rw [hmark]
    rfl
  have hd : decide (pageText ≠ pageText) = false :=
    decide_eq_false_iff_not.mpr (fun hne => hne rfl)
  simp only [treat_page, hm, hf, hp, hg, ht, hparse, hu, hd, List.append_nil]

theorem claim_C5_witness :
    treat_page
        ⟨fun _ => [], fun _ => [], id, fun s => [WNode.txt s], fun _ => none, fun _ => true⟩
        ⟨[], [], [([], [("T").data])], ("bot").data⟩
        [(("xFoo").data, ("yBar").data)] 1 (("hello").data) =
      some (("hello").data, [], false) :=
  claim_C5_no_op_save
    ⟨fun _ => [], fun _ => [], id, fun s => [WNode.txt s], fun _ => none, fun _ => true⟩
    ⟨[], [], [([], [("T").data])], ("bot").data⟩
    [(("xFoo").data, ("yBar").data)] 1 (("hello").data)
    rfl (fun fn hfn => absurd hfn (List.not_mem_nil fn))
    (by decide) (by decide) (by decide) (by decide) (by decide) (by decide)

/-! ### Claim C6: idempotence of the rewriter -/

theorem iconLookup_mem {map : IconMap} {n v : Str} (h : iconLookup map n = some v) :
    ∃ kv ∈ map, kv.1 = n ∧ kv.2 = v := by
  unfold iconLookup at h
  cases hf : map.find? (fun kv => kv.1 == n) with
  | none => rw [hf] at h; exact absurd h (by simp)
  | some kv =>
    rw [hf] at h
    have hv : kv.2 = v := by simpa using h
    have hmem := List.mem_of_find?_eq_some hf
    have hbeq := List.find?_some hf
    exact ⟨kv, hmem, eq_of_beq hbeq, hv⟩

/-- `replaceBSParam` either leaves the parameter alone with no event, or
takes the rewrite branch, whose shape is recorded. -/
theorem replaceBSParam_cases (vn : Str → Bool) (map : IconMap) (pfx : Str)
    (param : Param) :
    replaceBSParam vn map pfx param = (param, []) ∨
    ∃ newName p,
      p = (if pyStrip param.name = ("1").data then pyStrip pfx else []) ∧
      iconLookup map (p ++ pyStrip (stripComments param.value)) = some newName ∧
      newName.take p.length = p ∧
      replaceBSParam vn map pfx param =
        (Param.mk param.name
            (pyReplace param.value (pyStrip (stripComments param.value))
              (newName.drop p.length)) param.showkey,
          [(p ++ pyStrip (stripComments param.value), newName)]) := by
  by_cases hname : pyStrip param.name = ("1").data
  · simp only [replaceBSParam, if_pos hname]
    cases hlook : iconLookup map (pyStrip pfx ++ pyStrip (stripComments param.value)) with
    | none =>
        left
        simp only [hlook]
        split <;> rfl
    | some newName =>
        simp only [hlook]
        split
        · split
          · next hpre => exact Or.inr ⟨newName, pyStrip pfx, rfl, hlook, hpre, rfl⟩
          · exact Or.inl rfl
        · exact Or.inl rfl
  · simp only [replaceBSParam, if_neg hname]
    cases hlook : iconLookup map ([] ++ pyStrip (stripComments param.value)) with
    | none =>
        left
        simp only [hlook]
        split <;> rfl
    | some newName =>
        simp only [hlook]
        split
        · split
          · next hpre => exact Or.inr ⟨newName, [], rfl, hlook, hpre, rfl⟩
          · exact Or.inl rfl
        · exact Or.inl rfl

/-- A second application of `replaceBSParam` to the outcome of a first one
records no event, provided the replacement map is not chained (no value is
again a key) and map values are free of whitespace and `<`, and the
parameter value is already clean. -/
theorem bsParam_second_run_no_events (vn : Str → Bool) (map : IconMap) (pfx : Str)
    (param : Param)
    (hnochain : ∀ kv ∈ map, iconLookup map kv.2 = none)
    (hclean : ∀ kv ∈ map, (∀ c ∈ kv.2, isSpace c = false) ∧ '<' ∉ kv.2)
    (hsc : stripComments param.value = param.value)
    (hps : pyStrip param.value = param.value) :
    (replaceBSParam vn map pfx (replaceBSParam vn map pfx param).1).2 = [] := by
  rcases replaceBSParam_cases vn map pfx param with hskip | ⟨newName, p, hp, hlook, hpre, hhit⟩
  · simp only [hskip]
  · have hv : pyStrip (stripComments param.value) = param.value := by rw [hsc, hps]
    rw [hv] at hlook hhit
    rw [pyReplace_self] at hhit
    obtain ⟨kv, hkvmem, hk1, hk2⟩ := iconLookup_mem hlook
    have hws : ∀ c ∈ newName, isSpace c = false := by
      have := (hclean kv hkvmem).1; rw [hk2] at this; exact this
    have hlt : '<' ∉ newName := by
      have := (hclean kv hkvmem).2; rw [hk2] at this; exact this
    have hsc2 : stripComments (newName.drop p.length) = newName.drop p.length :=
      stripComments_of_no_lt (fun hc => hlt (List.mem_of_mem_drop hc))
    have hps2 : pyStrip (newName.drop p.length) = newName.drop p.length :=
      pyStrip_of_no_space (fun c hc => hws c (List.mem_of_mem_drop hc))
    have hcur2 : p ++ newName.drop p.length = newName := by
      nth_rewrite 1 [← hpre]
      exact List.take_append_drop p.length newName
    have hlooknone : iconLookup map newName = none := by
      have := hnochain kv hkvmem; rw [hk2] at this; exact this
    simp only [hhit]
    simp only [replaceBSParam, hsc2, hps2]
    rw [← hp, hcur2]
    simp only [hlooknone]
    split
    · rfl
    · rfl

/-- C6 (counterexample): with the chained replacement map
\x7ba → b, b → c\x7d and a BS-template page `\x7b\x7bT|a\x7d\x7d`, the first
run of `treat_page` produces `\x7b\x7bT|b\x7d\x7d` with event a → b; running
the pipeline again on that output records the additional event b → c, so
the second run's event list is nonempty and the rewriter is not
idempotent. -/
theorem claim_C6_counterexample :
    treat_page
        ⟨fun _ => [], fun _ => [], id,
          fun s => [WNode.tpl (("T").data) [⟨("1").data, (s.drop 4).dropLast.dropLast, false⟩]],
          fun n => some n, fun _ => true⟩
        ⟨[], [], [([], [("T").data])], ("bot").data⟩
        [(("a").data, ("b").data), (("b").data, ("c").data)] 1
        (("\x7b\x7bT|a\x7d\x7d").data) =
      some (("\x7b\x7bT|b\x7d\x7d").data, [(("a").data, ("b").data)], true) ∧
    treat_page
        ⟨fun _ => [], fun _ => [], id,
          fun s => [WNode.tpl (("T").data) [⟨("1").data, (s.drop 4).dropLast.dropLast, false⟩]],
          fun n => some n, fun _ => true⟩
        ⟨[], [], [([], [("T").data])], ("bot").data⟩
        [(("a").data, ("b").data), (("b").data, ("c").data)] 1
        (("\x7b\x7bT|b\x7d\x7d").data) =
      some (("\x7b\x7bT|c\x7d\x7d").data, [(("b").data, ("c").data)], true) ∧
    ([(("b").data, ("c").data)] : Events) ≠ [] := by
  exact ⟨by decide, by decide, by decide⟩

/-- C6 (amended): the BS-template stage is idempotent when the replacement
map is not chained: if no map value occurs again as a key and every map
value is free of whitespace and `<`, then running
`_replace_bs_template_files` a second time on the parameters produced by a
first run (parameter values already clean) records zero additional
replacement events. -/
theorem claim_C6_bs_stage_idempotent (validName : Str → Bool) (map : IconMap)
    (pfx : Str) (params : List Param)
    (hnochain : ∀ kv ∈ map, iconLookup map kv.2 = none)
    (hclean : ∀ kv ∈ map, (∀ c ∈ kv.2, isSpace c = false) ∧ '<' ∉ kv.2)
    (hvals : ∀ param ∈ params, stripComments param.value = param.value ∧
      pyStrip param.value = param.value) :
    (replaceBSTemplateParams validName map [pfx]
      (replaceBSTemplateParams validName map [pfx] params).1).2 = [] := by
  show (replaceParamsWith (replaceBSParam validName map pfx)
      (replaceParamsWith (replaceBSParam validName map pfx) params).1).2 = []
  induction params with
  | nil => rfl
  | cons p ps ih =>
    show ((replaceBSParam validName map pfx (replaceBSParam validName map pfx p).1).2 ++
      (replaceParamsWith (replaceBSParam validName map pfx)
        (replaceParamsWith (replaceBSParam validName map pfx) ps).1).2) = []
    rw [bsParam_second_run_no_events validName map pfx p hnochain hclean
      (hvals p (List.mem_cons_self p ps)).1 (hvals p (List.mem_cons_self p ps)).2,
      ih (fun q hq => hvals q (List.mem_cons_of_mem p hq))]
    rfl

theorem claim_C6_idempotent_witness :
    (replaceBSTemplateParams (fun _ => true) [(("xFoo").data, ("yBar").data)] [([] : Str)]
      (replaceBSTemplateParams (fun _ => true) [(("xFoo").data, ("yBar").data)] [([] : Str)]
        [⟨("1").data, ("xFoo").data, false⟩]).1).2 = [] :=
  claim_C6_bs_stage_idempotent (fun _ => true) [(("xFoo").data, ("yBar").data)] []
    [⟨("1").data, ("xFoo").data, false⟩]
    (by decide) (by decide) (by decide)

end BSiconsBot
